import Mathlib

/-!
# PLT archive decoder (`plt.cpp`): embedding and verified properties

Buffers (`std::vector<uint8_t>`) are lists of naturals; a byte is a natural below 256 and
every arithmetic step that can leave the byte range carries its reduction explicitly.
Pointers into a buffer are offsets from its start.  An access outside a buffer, a division
by zero and the use of an indeterminate value have no defined result in the source; the
embedding stops there with a `Fault` that says which of them happened.
-/

set_option autoImplicit false

namespace Plt

/-- Ways in which a run of the program stops without a result. -/
inductive Fault where
  /-- The `throw std::runtime_error("Unexpected EOF!")` in `decompress_rle` -/
  | unexpectedEOF
  /-- The `exit(1)` in `save_image` ("Unsupported pixel format") -/
  | unsupportedFormat
  /-- a read or write outside a buffer (the source has no check at that place) -/
  | outOfBounds
  /-- The division `data.size() / keylen` with an empty key buffer -/
  | divByZero
  /-- signed `int` arithmetic leaving the 32-bit range -/
  | intOverflow
  /-- use of a struct field that no read has filled -/
  | indeterminate
  /-- the iteration bound of the embedding was used up (never happens, see `bandLoop_fuel`) -/
  | fuel
  deriving DecidableEq, Repr

deriving instance DecidableEq for Except

/-! ## `decrypt` (plt.cpp 110-129) -/

/-- The loop `for (j = 0; j < n; j++) *pos++ ^= *key++;` with `key` starting at the first
key byte; the state is the buffer and the offset `pos`. -/
def xorLoop (keydb : List Nat) (n : Nat) (st : List Nat × Nat) : List Nat × Nat :=
  (List.range n).foldl
    (fun s j => (s.1.set s.2 (s.1.getD s.2 0 ^^^ keydb.getD j 0), s.2 + 1)) st

/-- The function `decrypt`: `count` whole key blocks, then the `rest` bytes of the last
partial block.  `keydb` is the global key buffer. -/
def decrypt (keydb data : List Nat) : Except Fault (List Nat) :=
  let keylen := keydb.length
  if keylen = 0 then .error .divByZero
  else
    let count := data.length / keylen
    let st := (List.range count).foldl (fun s _ => xorLoop keydb keylen s) (data, 0)
    let rest := data.length % keylen
    if rest > 0 then .ok (xorLoop keydb rest st).1 else .ok st.1

/-! ## `decompress_rle` (plt.cpp 41-94) -/

/-- The read `*pin++` of the byte at offset `pin` of the payload.  The source compares `pin`
with nothing (`in_end` is computed and never used), so an offset at or beyond the end of the
payload is an access outside the buffer. -/
def readByte (input : List Nat) (pin : Nat) : Except Fault Nat :=
  match input[pin]? with
  | some b => .ok b
  | none => .error .outOfBounds

/-- Lines 69-76: the count after a repeat signal, in a `uint16_t`.  Returns the count and the
input offset after it. -/
def readCount (input : List Nat) (pin : Nat) : Except Fault (Nat × Nat) := do
  let r0 ← readByte input pin
  if r0 ≥ 0x80 then
    let r1 ← readByte input (pin + 1)
    pure ((((((r0 &&& 0x7F) <<< 8) % 65536) ||| r1) + 0x80) % 65536, pin + 2)
  else
    pure (r0, pin + 1)

/-- Lines 77-81: `while (repetitions-- && pout < out_end) { *pout = b; pout += bands; }`.
Returns the output offset and the output buffer. -/
def runLoop (b bands size : Nat) : Nat → Nat → List Nat → Nat × List Nat
  | 0, pout, out => (pout, out)
  | reps + 1, pout, out =>
    if pout < size then runLoop b bands size reps (pout + bands) (out.set pout b)
    else (pout, out)

/-- Lines 62-91: the loop `while (pout < out_end)` of one band; the first argument bounds
the number of iterations.  Returns the input offset after the band and the output buffer. -/
def bandLoop (input : List Nat) (size bands : Nat) :
    Nat → Nat → Nat → Nat → List Nat → Except Fault (Nat × List Nat)
  | 0, pin, pout, _, out => if pout < size then .error .fuel else .ok (pin, out)
  | fuel + 1, pin, pout, last_b, out =>
    if pout < size then do
      let b ← readByte input pin
      let out1 := out.set pout b
      let pout1 := pout + bands
      if last_b = b then
        let (reps, pin2) ← readCount input (pin + 1)
        let (pout2, out2) := runLoop b bands size reps pout1 out1
        if pout2 < size then
          let b2 ← readByte input pin2
          bandLoop input size bands fuel (pin2 + 1) (pout2 + bands) b2 (out2.set pout2 b2)
        else
          bandLoop input size bands fuel pin2 pout2 b out2
      else
        bandLoop input size bands fuel (pin + 1) pout1 b out1
    else .ok (pin, out)

/-- Lines 52-92: the loop over the bands `i, i+1, ...`, `n` of them still to do. -/
def bandsLoop (input : List Nat) (size bands : Nat) :
    Nat → Nat → Nat → List Nat → Except Fault (Nat × List Nat)
  | 0, _, pin, out => .ok (pin, out)
  | n + 1, i, pin, out => do
    let init_b ← readByte input pin
    if i ≥ size then throw Fault.unexpectedEOF
    let (pin1, out1) ← bandLoop input size bands size (pin + 1) (i + bands) init_b (out.set i init_b)
    bandsLoop input size bands n (i + 1) pin1 out1

/-- The body of `decompress_rle`, with the final input offset kept beside the output
buffer. -/
def decodeBands (input : List Nat) (size_orig bands : Nat) : Except Fault (Nat × List Nat) :=
  bandsLoop input size_orig bands bands 0 0 (List.replicate size_orig 0)

/-- The call `decompress_rle(input, size_orig, bands)`: the buffer that replaces `input`. -/
def decompress_rle (input : List Nat) (size_orig bands : Nat) : Except Fault (List Nat) :=
  (decodeBands input size_orig bands).map Prod.snd


/-! ## Accumulation (plt.cpp 238-242) -/

/-- The loop `for (pi = image.data(), pl = last.data(); pi < iend; ) *pi++ += *pl++;`,
with `iend = pi + image.size()`.  The state is the pair of buffers `(image, last)`; the
sum is stored in a `uint8_t`.  Nothing in the source compares the two sizes: if `last` is
the shorter buffer the read `*pl` leaves it. -/
def accumulate (image last : List Nat) : Except Fault (List Nat × List Nat) :=
  (List.range image.length).foldlM
    (fun (st : List Nat × List Nat) j =>
      match st.2[j]? with
      | none => Except.error Fault.outOfBounds
      | some l => Except.ok (st.1.set j ((st.1.getD j 0 + l) % 256), st.2))
    (image, last)

/-! ## `flip3`, `flip4`, `save_image` (plt.cpp 132-189) -/

/-- The value of an `int` expression, which has to stay inside the 32-bit range. -/
def checkedInt (x : Int) : Except Fault Int :=
  if -2147483648 ≤ x ∧ x ≤ 2147483647 then .ok x else .error .intOverflow

/-- A read `in[k]` at offset `i` of a buffer. -/
def readAt (data : List Nat) (i : Nat) : Except Fault Nat :=
  match data[i]? with
  | some b => .ok b
  | none => .error .outOfBounds

/-- A write `out[k] = b` at offset `i` of a buffer. -/
def writeAt (buf : List Nat) (i b : Nat) : Except Fault (List Nat) :=
  if i < buf.length then .ok (buf.set i b) else .error .outOfBounds

/-- The function `flip3(data, w, h)`: rows from the last to the first, the three bytes of
each pixel in reverse order. -/
def flip3 (data : List Nat) (w h : Int) : Except Fault (List Nat) := do
  let stride ← checkedInt (w * 3)
  (List.range h.toNat).foldlM
    (fun (buf : List Nat) (row : Nat) => do
      let inOff ← checkedInt ((h - row - 1) * stride)
      let outOff ← checkedInt (row * stride)
      (List.range w.toNat).foldlM
        (fun (buf : List Nat) (p : Nat) => do
          let i := inOff.toNat + 3 * p
          let o := outOff.toNat + 3 * p
          let buf ← writeAt buf o (← readAt data (i + 2))
          let buf ← writeAt buf (o + 1) (← readAt data (i + 1))
          writeAt buf (o + 2) (← readAt data i))
        buf)
    (List.replicate data.length 0)

/-- The function `flip4(data, w, h)`: rows from the last to the first, the four bytes of
each pixel in reverse order. -/
def flip4 (data : List Nat) (w h : Int) : Except Fault (List Nat) := do
  let stride ← checkedInt (w * 4)
  (List.range h.toNat).foldlM
    (fun (buf : List Nat) (row : Nat) => do
      let inOff ← checkedInt ((h - row - 1) * stride)
      let outOff ← checkedInt (row * stride)
      (List.range w.toNat).foldlM
        (fun (buf : List Nat) (p : Nat) => do
          let i := inOff.toNat + 4 * p
          let o := outOff.toNat + 4 * p
          let buf ← writeAt buf o (← readAt data (i + 3))
          let buf ← writeAt buf (o + 1) (← readAt data (i + 2))
          let buf ← writeAt buf (o + 2) (← readAt data (i + 1))
          writeAt buf (o + 3) (← readAt data i))
        buf)
    (List.replicate data.length 0)

/-- The call `save_image(filename, data, w, h, c)`: the buffer `res` that is handed to the PNG
encoder, or the exit with "Unsupported pixel format". -/
def save_image (data : List Nat) (w h c : Int) : Except Fault (List Nat) :=
  if c = 3 then flip3 data w h
  else if c = 4 then flip4 data w h
  else .error .unsupportedFormat

/-! ## The archive stream and `main` (plt.cpp 191-254) -/

/-- The input file stream: the bytes not yet extracted and whether the stream is still
good.  A read that cannot deliver all its bytes sets the fail state, and every later read
extracts nothing. -/
structure IStream where
  rest : List Nat
  good : Bool
  deriving DecidableEq, Repr

/-- The call `fin.read(buf, n)` on a buffer of at least `n` cells: the first `n` cells are
overwritten as far as bytes are left.  `cell` turns a byte into a cell of the buffer. -/
def IStream.read {α : Type} (fin : IStream) (cell : Nat → α) (buf : List α) (n : Nat) :
    List α × IStream :=
  if fin.good then
    if n ≤ fin.rest.length then
      ((fin.rest.take n).map cell ++ buf.drop n, { rest := fin.rest.drop n, good := true })
    else
      (fin.rest.map cell ++ buf.drop fin.rest.length, { rest := [], good := false })
  else (buf, fin)

/-- An unsigned little-endian field of `n` bytes at offset `off` of a packed struct, the
byte order of the hosts the program is built for.  The cells of a struct that was declared
without initialiser hold no value until a read fills them. -/
def leField (mem : List (Option Nat)) (off : Nat) : Nat → Except Fault Nat
  | 0 => .ok 0
  | n + 1 =>
    match mem.getD off none with
    | none => .error .indeterminate
    | some b => (leField mem (off + 1) n).map (fun r => b + 256 * r)

/-- Multiplication of two `uint32_t`. -/
def mul32 (a b : Nat) : Nat := (a * b) % 4294967296

/-- Conversion of a `uint32_t` argument to the `int` parameter of `save_image`. -/
def toInt (u : Nat) : Int := if u < 2147483648 then (u : Int) else (u : Int) - 4294967296

/-- One call of `save_image` from `main`: the number of the frame, the buffer `image`
that was passed, and the buffer handed to the encoder. -/
structure Emitted where
  index : Nat
  frame : List Nat
  pixels : List Nat
  deriving DecidableEq, Repr

/-- The variables of `main` that live across the iterations of the loop over the delta
entries. -/
structure MainState where
  fin : IStream
  entry : List (Option Nat)
  last : List Nat
  emitted : List Emitted

/-- The body of the loop `for (i = 1; i < hdr.file_count; i++)`, lines 231-250.  `image`
is empty when the body starts (it was moved into `last`), so `resize` fills it with zeros
before the read. -/
def deltaStep (w h c : Nat) (st : MainState) (i : Nat) : Except Fault MainState := do
  let (entry, fin1) := st.fin.read some st.entry 5
  let length ← leField entry 1 4
  let (payload, fin2) := fin1.read id (List.replicate length 0) length
  let bands ← leField entry 0 1
  let image ← decompress_rle payload (mul32 (mul32 w h) c) bands
  let (image1, _) ← accumulate image st.last
  let pixels ← save_image image1 (toInt w) (toInt h) (toInt c)
  pure { fin := fin2, entry := entry, last := image1,
         emitted := st.emitted ++ [{ index := i, frame := image1, pixels := pixels }] }

/-- The loop over the delta entries; a fault ends the run and leaves the frames written so
far. -/
def deltaLoop (w h c : Nat) : List Nat → MainState → List Emitted × Option Fault
  | [], st => (st.emitted, none)
  | i :: is, st =>
    match deltaStep w h c st i with
    | .error f => (st.emitted, some f)
    | .ok st1 => deltaLoop w h c is st1

/-- Lines 218-227: header, base descriptor, base payload, `decrypt`, first `save_image`.
Returns `base.w`, `base.h`, `base.c`, the packed header and the state before the loop. -/
def baseFrame (keydb file : List Nat) :
    Except Fault (Nat × Nat × Nat × List (Option Nat) × MainState) := do
  let fin0 : IStream := { rest := file, good := true }
  let (hdr, fin1) := fin0.read some (List.replicate 22 none) 22
  let (base, fin2) := fin1.read some (List.replicate 20 none) 20
  let w ← leField base 8 4
  let h ← leField base 12 4
  let c ← leField base 16 4
  let image_size := mul32 (mul32 w h) c
  let (image, fin3) := fin2.read id (List.replicate image_size 0) image_size
  let image1 ← decrypt keydb image
  let pixels ← save_image image1 (toInt w) (toInt h) (toInt c)
  pure (w, h, c, hdr,
    { fin := fin3, entry := List.replicate 5 none, last := image1,
      emitted := [{ index := 0, frame := image1, pixels := pixels }] })

/-- The function `main` once the archive and the key file are open: `keydb` is the content of the key
file, `file` the content of the archive.  The result is the list of the frames written, in
the order of the calls of `save_image`, and the fault that ended the run, if any. -/
def main (keydb file : List Nat) : List Emitted × Option Fault :=
  match baseFrame keydb file with
  | .error f => ([], some f)
  | .ok (w, h, c, hdr, st) =>
    match leField hdr 4 2 with
    | .error f => (st.emitted, some f)
    | .ok file_count => deltaLoop w h c (List.range' 1 (file_count - 1)) st

/-! ## Auxiliary definitions for the statements -/

/-- Cell `i` of the buffer in which the first `p` bytes of `data` are XORed with the
cyclic key. -/
def xorPrefix (keydb data : List Nat) (p : Nat) (i : Nat) : Option Nat :=
  if i < p then (data[i]?).map (fun x => x ^^^ keydb.getD (i % keydb.length) 0) else data[i]?

/-- Byte-wise `(a - b) mod 256` (spec 8, accumulation inverse). -/
def subtractByte (a b : Nat) : Nat := (((a : Int) - (b : Int)) % 256).toNat

/-- The buffer `subtract(D)`: each byte is `(0 - D[i]) mod 256`. -/
def subtract (delta : List Nat) : List Nat := delta.map (subtractByte 0)

/-! ### The per-band algorithm of spec 4.2, on the list of the values of one band -/

/-- Spec 4.2, step 2b: the run-length count at input position `pos`, with the position
after it.  `none` is the unexpected end of the input. -/
def specCount (input : List Nat) (pos : Nat) : Option (Nat × Nat) :=
  match input[pos]? with
  | none => none
  | some r0 =>
    if r0 < 0x80 then some (r0, pos + 1)
    else
      match input[pos + 1]? with
      | none => none
      | some r1 => some ((((r0 &&& 0x7F) <<< 8) ||| r1) + 0x80, pos + 2)

/-- Spec 4.2, step 2: the values of the `slots` slots of a band that are still empty, read
from input position `pos` with previous value `prev`; with them the position after the
band.  Each round fills at least one slot, and the first argument bounds the rounds. -/
def specBandRest (input : List Nat) : Nat → Nat → Nat → Nat → Option (List Nat × Nat)
  | _, pos, _, 0 => some ([], pos)
  | 0, _, _, _ + 1 => none
  | fuel + 1, pos, prev, slots + 1 =>
    match input[pos]? with
    | none => none
    | some b =>
      if b = prev then
        match specCount input (pos + 1) with
        | none => none
        | some (n, pos2) =>
          if n < slots then
            match input[pos2]? with
            | none => none
            | some b2 =>
              (specBandRest input fuel (pos2 + 1) b2 (slots - n - 1)).map
                (fun r => (b :: (List.replicate n b ++ b2 :: r.1), r.2))
          else some (b :: List.replicate slots b, pos2)
      else
        (specBandRest input fuel (pos + 1) b slots).map (fun r => (b :: r.1, r.2))

/-- Spec 4.2, steps 1 and 2: the values of a band of `slots` slots read from input
position `pos`, and the position after the band. -/
def specBand (input : List Nat) (pos : Nat) : Nat → Option (List Nat × Nat)
  | 0 => none
  | slots + 1 =>
    match input[pos]? with
    | none => none
    | some b0 =>
      (specBandRest input slots (pos + 1) b0 slots).map (fun r => (b0 :: r.1, r.2))

/-- The number of output offsets `k, k + bands, k + 2 * bands, ...` below `size`. -/
def slotCount (size bands k : Nat) : Nat := (size - k + (bands - 1)) / bands

/-- The buffer `out` with the values `vs` stored at the offsets `pout, pout + bands, ...`. -/
def writeStrided (bands : Nat) : List Nat → Nat → List Nat → List Nat
  | out, _, [] => out
  | out, pout, v :: vs => writeStrided bands (out.set pout v) (pout + bands) vs

/-- The result of a spec-level decoding as the result of the source: the unexpected end of
the input is the read outside the payload. -/
def ofSpec {α β : Type} (f : α → β) : Option α → Except Fault β
  | some r => .ok (f r)
  | none => .error .outOfBounds

/-- Spec 4.2: the bands `k, k + 1, ...`, `n` of them, decoded one after the other on one
input cursor that starts at `pos`: the values of each band and the final position. -/
def specBands (input : List Nat) (size bands : Nat) :
    Nat → Nat → Nat → Option (List (List Nat) × Nat)
  | 0, _, pos => some ([], pos)
  | n + 1, k, pos =>
    match specBand input pos (slotCount size bands k) with
    | none => none
    | some (vs, p) => (specBands input size bands n (k + 1) p).map (fun r => (vs :: r.1, r.2))

/-- The buffer `out` with the bands `k, k + 1, ...` filled with the given values. -/
def writeBands (bands : Nat) : List Nat → Nat → List (List Nat) → List Nat
  | out, _, [] => out
  | out, k, vs :: rest => writeBands bands (writeStrided bands out k vs) (k + 1) rest

/-! ### A reference run-length encoder -/

/-- The count bytes of a run of `n ≤ 32895` further copies: one byte below 128, else the
two bytes of the biased 15-bit form. -/
def encCount (n : Nat) : List Nat :=
  if n < 0x80 then [n] else [0x80 + (n - 0x80) / 256, (n - 0x80) % 256]

/-- The number of leading values of a list that are equal to `v`. -/
def leadLen (v : Nat) : List Nat → Nat
  | [] => 0
  | w :: ws => if w = v then leadLen v ws + 1 else 0

/-- The encoding of the values `vs` of a band that follow a value `prev`: a value equal to
the previous one is followed by the count of its further copies (as many as there are, at
most 32895) and then by the next value as a literal.  The first argument bounds the
recursion and is the length of `vs` at the start. -/
def encRest : Nat → Nat → List Nat → List Nat
  | _, _, [] => []
  | 0, _, _ :: _ => []
  | fuel + 1, prev, v :: rest =>
    if v = prev then
      v :: (encCount (min (leadLen v rest) 32895) ++
        (match rest.drop (min (leadLen v rest) 32895) with
          | [] => []
          | w :: rest2 => w :: encRest fuel w rest2))
    else v :: encRest fuel v rest

/-- The encoding of one band: its first value, then the rest. -/
def encBand : List Nat → List Nat
  | [] => []
  | v0 :: rest => v0 :: encRest rest.length v0 rest

/-- The values of band `k` of the buffer `D`: the bytes at `k, k + bands, ...`. -/
def bandValues (D : List Nat) (bands k : Nat) : List Nat :=
  (List.range (slotCount D.length bands k)).map (fun j => D.getD (k + j * bands) 0)

/-- The encodings of the bands `k, k + 1, ...`, `n` of them, one after the other. -/
def encodeFrom (D : List Nat) (bands : Nat) : Nat → Nat → List Nat
  | 0, _ => []
  | n + 1, k => encBand (bandValues D bands k) ++ encodeFrom D bands n (k + 1)

/-- The reference encoder: all bands of `D` in order. -/
def encode (D : List Nat) (bands : Nat) : List Nat := encodeFrom D bands bands 0

/-- The bands `k, k + 1, ...` of `D`, `n` of them. -/
def bandList (D : List Nat) (bands : Nat) : Nat → Nat → List (List Nat)
  | 0, _ => []
  | n + 1, k => bandValues D bands k :: bandList D bands n (k + 1)

/-! ### The archive layout of spec 6 and the frames of spec 3 -/

/-- The value of an unsigned little-endian field. -/
def leNat : List Nat → Nat
  | [] => 0
  | b :: bs => b + 256 * leNat bs

/-- A delta entry: band count and compressed payload. -/
structure DeltaEntry where
  bands : Nat
  payload : List Nat
  deriving DecidableEq, Repr

/-- An archive that holds everything it declares. -/
structure Archive where
  file_count : Nat
  w : Nat
  h : Nat
  c : Nat
  base : List Nat
  entries : List DeltaEntry
  deriving DecidableEq, Repr

/-- Spec 6, per delta entry: `bands` (1 byte), `length` (4 bytes), then `length` bytes of
payload; `n` entries one after the other.  `none` when the bytes do not hold them all. -/
def parseEntries : Nat → List Nat → Option (List DeltaEntry)
  | 0, _ => some []
  | n + 1, bytes =>
    if 5 + leNat ((bytes.drop 1).take 4) ≤ bytes.length then
      (parseEntries n (bytes.drop (5 + leNat ((bytes.drop 1).take 4)))).map
        (fun es =>
          { bands := bytes.getD 0 0,
            payload := (bytes.drop 5).take (leNat ((bytes.drop 1).take 4)) } :: es)
    else none

/-- The declared frame count: the 2-byte field after the 4-byte magic number. -/
def fileCount (file : List Nat) : Nat := leNat ((file.drop 4).take 2)

/-- Spec 6: header (22 bytes), base descriptor (20 bytes: `x, y, w, h, c`), `w * h * c`
bytes of base payload, then `file_count - 1` delta entries.  `none` when the file does not
hold them all. -/
def parseArchive (file : List Nat) : Option Archive :=
  let w := leNat ((file.drop 30).take 4)
  let h := leNat ((file.drop 34).take 4)
  let c := leNat ((file.drop 38).take 4)
  if 42 + w * h * c ≤ file.length then
    (parseEntries (fileCount file - 1) (file.drop (42 + w * h * c))).map
      (fun es =>
        { file_count := fileCount file, w := w, h := h, c := c,
          base := (file.drop 42).take (w * h * c), entries := es })
  else none

/-- Spec 4.3: the byte-wise sum `(prev[i] + delta[i]) mod 256`. -/
def addFrames (prev delta : List Nat) : List Nat :=
  List.zipWith (fun p d => (p + d) % 256) prev delta

/-- Spec 3: the frames after `prev`: each is the sum of its predecessor and the decoding
of the next entry to `size` bytes. -/
def specFramesFrom (size : Nat) : List Nat → List DeltaEntry → Option (List (List Nat))
  | _, [] => some []
  | prev, e :: es =>
    match decompress_rle e.payload size e.bands with
    | .ok delta =>
      (specFramesFrom size (addFrames prev delta) es).map (fun fs => addFrames prev delta :: fs)
    | .error _ => none

/-- Spec 3: frame 0 is the decrypted base payload, frame `i > 0` the sum of frame `i - 1`
and the decoding of the payload of entry `i` (as stored) to `w * h * c` bytes. -/
def specFrames (keydb : List Nat) (A : Archive) : Option (List (List Nat)) :=
  match decrypt keydb A.base with
  | .ok f0 => (specFramesFrom (A.w * A.h * A.c) f0 A.entries).map (fun fs => f0 :: fs)
  | .error _ => none

/-! ### Example archives -/

/-- A header with the magic number "PLT", the given frame count and zero window fields. -/
def exHeader (file_count : Nat) : List Nat :=
  [0x50, 0x4C, 0x54, 0x00, file_count % 256, file_count / 256,
   0, 0, 0, 0, 0, 0, 0, 0, 0, 0, 0, 0, 0, 0, 0, 0]

/-- The base descriptor `x = y = 0, w = 2, h = 1, c = 3` of spec 8. -/
def exBase : List Nat := [0, 0, 0, 0, 0, 0, 0, 0, 2, 0, 0, 0, 1, 0, 0, 0, 3, 0, 0, 0]

/-- The base payload of spec 8 as stored: `[0x10 .. 0x60]` XORed with the key `0xFF`. -/
def exPayload : List Nat := [0xEF, 0xDF, 0xCF, 0xBF, 0xAF, 0x9F]

/-- The two-frame archive of spec 8: the delta entry has 3 bands and a payload of 9 bytes
that decodes to `[1, 1, 1, 1, 1, 1]`. -/
def exArchive : List Nat :=
  exHeader 2 ++ exBase ++ exPayload ++ [3, 9, 0, 0, 0] ++ [1, 1, 0, 1, 1, 0, 1, 1, 0]

/-- An archive whose header declares no frame at all. -/
def exArchiveZero : List Nat := exHeader 0 ++ exBase ++ exPayload

/-- A one-frame archive that ends in the middle of the base payload. -/
def exArchiveShort : List Nat := exHeader 1 ++ exBase ++ [0xEF, 0xDF, 0xCF]

/-- The two frames `main` writes for `exArchive` under the key `[0xFF]`. -/
def exEmitted : List Emitted :=
  [{ index := 0, frame := [0x10, 0x20, 0x30, 0x40, 0x50, 0x60],
     pixels := [0x30, 0x20, 0x10, 0x60, 0x50, 0x40] },
   { index := 1, frame := [0x11, 0x21, 0x31, 0x41, 0x51, 0x61],
     pixels := [0x31, 0x21, 0x11, 0x61, 0x51, 0x41] }]

/-- The archive `exArchive` as spec 6 reads it. -/
def exParsed : Archive :=
  { file_count := 2, w := 2, h := 1, c := 3, base := exPayload,
    entries := [{ bands := 3, payload := [1, 1, 0, 1, 1, 0, 1, 1, 0] }] }

/-- Header and base descriptor of a one-frame archive with `w = 2`, `h = 2^31`, `c = 4`:
the product `w * h * c` is `2^34`. -/
def exWidePrefix : List Nat :=
  exHeader 1 ++ [0, 0, 0, 0, 0, 0, 0, 0, 2, 0, 0, 0, 0, 0, 0, 0x80, 4, 0, 0, 0]

/-- The archive with that prefix and all the `2^34` bytes of base payload it declares. -/
def exArchiveWide : List Nat := exWidePrefix ++ List.replicate 17179869184 0

/-- The frame `main` writes for `exArchiveShort` under the key `[0xFF]`: the three stored
bytes decrypted, then three times `0 XOR 0xFF`. -/
def exEmittedShort : List Emitted :=
  [{ index := 0, frame := [0x10, 0x20, 0x30, 0xFF, 0xFF, 0xFF],
     pixels := [0x30, 0x20, 0x10, 0xFF, 0xFF, 0xFF] }]

/-- An empty frame with number 0. -/
def exEmptyFrame : Emitted := { index := 0, frame := [], pixels := [] }

/-- The archive `exArchiveWide` as spec 6 reads it. -/
def exParsedWide : Archive :=
  { file_count := 1, w := 2, h := 2147483648, c := 4,
    base := List.replicate 17179869184 0, entries := [] }

/-- The archive of spec 8 with a delta entry that declares no band and no payload. -/
def exArchiveStill : List Nat := exHeader 2 ++ exBase ++ exPayload ++ [0, 0, 0, 0, 0]

/-- The frame `[0x10 .. 0x60]` with number 0. -/
def exFrame0 : Emitted :=
  { index := 0, frame := [0x10, 0x20, 0x30, 0x40, 0x50, 0x60],
    pixels := [0x30, 0x20, 0x10, 0x60, 0x50, 0x40] }

/-- The variables of `main` on `exArchiveStill` under the key `[0xFF]` when it enters the
loop over the delta entries. -/
def exStateStill : MainState :=
  { fin := { rest := [0, 0, 0, 0, 0], good := true }, entry := List.replicate 5 none,
    last := [0x10, 0x20, 0x30, 0x40, 0x50, 0x60], emitted := [exFrame0] }

/-! ### The loops of `flip3` and `flip4`, named -/

/-- The body of the pixel loop of `flip3` for pixel `p` of a row whose input starts at
offset `I` and whose output starts at offset `O`. -/
def pixel3 (data : List Nat) (I O : Nat) (buf : List Nat) (p : Nat) : Except Fault (List Nat) :=
  (readAt data (I + 3 * p + 2)).bind fun x =>
  (writeAt buf (O + 3 * p) x).bind fun buf1 =>
  (readAt data (I + 3 * p + 1)).bind fun y =>
  (writeAt buf1 (O + 3 * p + 1) y).bind fun buf2 =>
  (readAt data (I + 3 * p)).bind fun z =>
  writeAt buf2 (O + 3 * p + 2) z

/-- The body of the row loop of `flip3`. -/
def row3 (data : List Nat) (w h stride : Int) (buf : List Nat) (row : Nat) :
    Except Fault (List Nat) :=
  (checkedInt ((h - row - 1) * stride)).bind fun inOff =>
  (checkedInt (row * stride)).bind fun outOff =>
  (List.range w.toNat).foldlM (pixel3 data inOff.toNat outOff.toNat) buf

/-- The body of the pixel loop of `flip4`. -/
def pixel4 (data : List Nat) (I O : Nat) (buf : List Nat) (p : Nat) : Except Fault (List Nat) :=
  (readAt data (I + 4 * p + 3)).bind fun x =>
  (writeAt buf (O + 4 * p) x).bind fun buf1 =>
  (readAt data (I + 4 * p + 2)).bind fun y =>
  (writeAt buf1 (O + 4 * p + 1) y).bind fun buf2 =>
  (readAt data (I + 4 * p + 1)).bind fun z =>
  (writeAt buf2 (O + 4 * p + 2) z).bind fun buf3 =>
  (readAt data (I + 4 * p)).bind fun u =>
  writeAt buf3 (O + 4 * p + 3) u

/-- The body of the row loop of `flip4`. -/
def row4 (data : List Nat) (w h stride : Int) (buf : List Nat) (row : Nat) :
    Except Fault (List Nat) :=
  (checkedInt ((h - row - 1) * stride)).bind fun inOff =>
  (checkedInt (row * stride)).bind fun outOff =>
  (List.range w.toNat).foldlM (pixel4 data inOff.toNat outOff.toNat) buf

/-- What the body `f` of a pixel loop has to do for pixels of `c` bytes on a row whose
input starts at `I` and whose output starts at `O`: it stores the `c` bytes of input pixel
`p` in reverse order in output pixel `p` and leaves the rest of the buffer alone. -/
def PixelOk (c : Nat) (data : List Nat) (I O : Nat)
    (f : List Nat → Nat → Except Fault (List Nat)) : Prop :=
  ∀ (p : Nat) (buf : List Nat), O + c * p + c ≤ buf.length → I + c * p + c ≤ data.length →
    ∃ buf', f buf p = .ok buf' ∧ buf'.length = buf.length ∧
      (∀ k, k < c → buf'[O + c * p + k]? = some (data.getD (I + c * p + (c - 1 - k)) 0)) ∧
      (∀ idx, idx < O + c * p ∨ O + c * p + c ≤ idx → buf'[idx]? = buf[idx]?)

/-- The value of `image_size` (line 221) for an archive: the product of the fields `w`,
`h` and `c` of the base descriptor at offsets 30, 34 and 38, computed in `uint32_t`. -/
def imageSize (file : List Nat) : Nat :=
  mul32 (mul32 (leNat ((file.drop 30).take 4)) (leNat ((file.drop 34).take 4)))
    (leNat ((file.drop 38).take 4))

/-- The frame `next` is the sum of the frame `prev` and a delta that `decompress_rle`
returned for the size `S`, and the delta is as long as `prev`. -/
def AddsDelta (S : Nat) (prev next : List Nat) : Prop :=
  ∃ payload bands delta, decompress_rle payload S bands = .ok delta ∧
    delta.length = prev.length ∧ accumulate delta prev = .ok (next, prev)


/-! ## `decrypt`: closed form -/

theorem xorLoop_succ (keydb : List Nat) (n : Nat) (st : List Nat × Nat) :
    xorLoop keydb (n + 1) st =
      ((xorLoop keydb n st).1.set (xorLoop keydb n st).2
          ((xorLoop keydb n st).1.getD (xorLoop keydb n st).2 0 ^^^ keydb.getD n 0),
        (xorLoop keydb n st).2 + 1) := by
  simp [xorLoop, List.range_succ, List.foldl_append]

/-- What one pass of `xorLoop` over `n` bytes does, started at offset `p`. -/
theorem xorLoop_spec (keydb : List Nat) (n : Nat) (d : List Nat) (p : Nat) :
    (xorLoop keydb n (d, p)).2 = p + n ∧
    (xorLoop keydb n (d, p)).1.length = d.length ∧
    ∀ i, (xorLoop keydb n (d, p)).1[i]? =
      if p ≤ i ∧ i < p + n then (d[i]?).map (fun x => x ^^^ keydb.getD (i - p) 0)
      else d[i]? := by
  induction n with
  | zero =>
    refine ⟨rfl, rfl, fun i => ?_⟩
    have : ¬ (p ≤ i ∧ i < p + 0) := by omega
    rw [if_neg this]; rfl
  | succ n ih =>
    obtain ⟨h1, h2, h3⟩ := ih
    rw [xorLoop_succ]
    refine ⟨by simp [h1]; omega, by simp [h2], fun i => ?_⟩
    simp only [h1]
    rw [List.getElem?_set, h2]
    by_cases hpi : p + n = i
    · subst hpi
      have e := h3 (p + n)
      have hc : ¬ (p ≤ p + n ∧ p + n < p + n) := by omega
      rw [if_neg hc] at e
      have hc2 : p ≤ p + n ∧ p + n < p + (n + 1) := by omega
      rw [if_pos rfl, if_pos hc2, List.getD_eq_getElem?_getD, e]
      by_cases hlt : p + n < d.length
      · simp [hlt, List.getElem?_eq_getElem hlt]
      · have : d[p + n]? = none := List.getElem?_eq_none (by omega)
        simp [hlt, this]
    · rw [if_neg hpi, h3 i]
      by_cases hc : p ≤ i ∧ i < p + n
      · have hc2 : p ≤ i ∧ i < p + (n + 1) := by omega
        rw [if_pos hc, if_pos hc2]
      · have hc2 : ¬ (p ≤ i ∧ i < p + (n + 1)) := by omega
        rw [if_neg hc, if_neg hc2]

theorem xorLoop_block (keydb data d : List Nat) (c n : Nat) (hn : n ≤ keydb.length)
    (hd : ∀ i, d[i]? = xorPrefix keydb data (c * keydb.length) i) :
    (xorLoop keydb n (d, c * keydb.length)).2 = c * keydb.length + n ∧
    ∀ i, (xorLoop keydb n (d, c * keydb.length)).1[i]? =
      xorPrefix keydb data (c * keydb.length + n) i := by
  obtain ⟨h1, -, h3⟩ := xorLoop_spec keydb n d (c * keydb.length)
  refine ⟨h1, fun i => ?_⟩
  rw [h3 i, hd i]
  unfold xorPrefix
  by_cases hc : c * keydb.length ≤ i ∧ i < c * keydb.length + n
  · have e : i % keydb.length = i - c * keydb.length := by
      have : i = (i - c * keydb.length) + c * keydb.length := by omega
      conv_lhs => rw [this]
      rw [Nat.add_mul_mod_self_right]
      exact Nat.mod_eq_of_lt (by omega)
    have h1 : ¬ i < c * keydb.length := by omega
    have h2 : i < c * keydb.length + n := by omega
    rw [if_pos hc, if_neg h1, if_pos h2, e]
  · rw [if_neg hc]
    by_cases h1 : i < c * keydb.length
    · have h2 : i < c * keydb.length + n := by omega
      rw [if_pos h1, if_pos h2]
    · have h2 : ¬ i < c * keydb.length + n := by omega
      rw [if_neg h1, if_neg h2]

theorem blocks_spec (keydb data : List Nat) (c : Nat) :
    ((List.range c).foldl (fun s _ => xorLoop keydb keydb.length s) (data, 0)).2
        = c * keydb.length ∧
    ∀ i, ((List.range c).foldl (fun s _ => xorLoop keydb keydb.length s) (data, 0)).1[i]? =
      xorPrefix keydb data (c * keydb.length) i := by
  induction c with
  | zero =>
    refine ⟨by simp, fun i => ?_⟩
    simp [xorPrefix]
  | succ c ih =>
    obtain ⟨h1, h2⟩ := ih
    rw [List.range_succ, List.foldl_append]
    simp only [List.foldl_cons, List.foldl_nil]
    generalize hst : (List.range c).foldl (fun s _ => xorLoop keydb keydb.length s) (data, 0) = st
      at h1 h2
    obtain ⟨d, p⟩ := st
    simp only at h1 h2
    subst h1
    have := xorLoop_block keydb data d c keydb.length (le_refl _) h2
    rw [Nat.succ_mul]
    exact this

/-- Closed form of `decrypt` for a non-empty key. -/
theorem decrypt_getElem? (keydb data : List Nat) (hk : keydb ≠ []) :
    ∃ out, decrypt keydb data = .ok out ∧
      ∀ i, out[i]? = (data[i]?).map (fun x => x ^^^ keydb.getD (i % keydb.length) 0) := by
  have hK : keydb.length ≠ 0 := by simpa using hk
  have hKpos : 0 < keydb.length := Nat.pos_of_ne_zero hK
  obtain ⟨h1, h2⟩ := blocks_spec keydb data (data.length / keydb.length)
  unfold decrypt
  simp only [hK, if_false]
  generalize hst : (List.range (data.length / keydb.length)).foldl
      (fun s _ => xorLoop keydb keydb.length s) (data, 0) = st at h1 h2
  obtain ⟨d, p⟩ := st
  simp only at h1 h2
  subst h1
  have key : ∀ (q : Nat) (o : List Nat), data.length ≤ q →
      (∀ i, o[i]? = xorPrefix keydb data q i) →
      ∀ i, o[i]? = (data[i]?).map (fun x => x ^^^ keydb.getD (i % keydb.length) 0) := by
    intro q o hq ho i
    rw [ho i]
    unfold xorPrefix
    by_cases hi : i < q
    · rw [if_pos hi]
    · rw [if_neg hi]
      have : data[i]? = none := List.getElem?_eq_none (by omega)
      simp [this]
  have hdm := Nat.div_add_mod data.length keydb.length
  rw [Nat.mul_comm] at hdm
  split
  · obtain ⟨-, h4⟩ := xorLoop_block keydb data d (data.length / keydb.length)
      (data.length % keydb.length) (Nat.le_of_lt (Nat.mod_lt _ hKpos)) h2
    exact ⟨_, rfl, key _ _ (by omega) h4⟩
  · exact ⟨_, rfl, key _ _ (by omega) h2⟩

theorem length_eq_of_getElem?_map {α β : Type} (xs : List α) (ys : List β) (f : Nat → β → α)
    (h : ∀ i, xs[i]? = (ys[i]?).map (f i)) : xs.length = ys.length := by
  apply Nat.le_antisymm
  · by_contra hlt
    have h1 := h ys.length
    have : ys[ys.length]? = none := List.getElem?_eq_none (le_refl _)
    rw [this, Option.map_none'] at h1
    have := List.getElem?_eq_none_iff.mp h1
    omega
  · by_contra hlt
    have h1 := h xs.length
    have : xs[xs.length]? = none := List.getElem?_eq_none (le_refl _)
    rw [this] at h1
    have h2 : ys[xs.length]? = none := by
      cases hy : ys[xs.length]? with
      | none => rfl
      | some y => rw [hy] at h1; simp at h1
    have := List.getElem?_eq_none_iff.mp h2
    omega

/-- C1: for a non-empty key of length K and a buffer of length N, `decrypt` returns a
buffer of length N whose byte `i` is `data[i] XOR key[i mod K]`, for every `i < N`. -/
theorem decrypt_xor_cyclic (keydb data : List Nat) (hk : keydb ≠ []) :
    ∃ out, decrypt keydb data = .ok out ∧ out.length = data.length ∧
      ∀ i, i < data.length →
        out.getD i 0 = data.getD i 0 ^^^ keydb.getD (i % keydb.length) 0 := by
  obtain ⟨out, h1, h2⟩ := decrypt_getElem? keydb data hk
  refine ⟨out, h1, length_eq_of_getElem?_map out data _ h2, fun i hi => ?_⟩
  rw [List.getD_eq_getElem?_getD, h2 i, List.getD_eq_getElem?_getD data,
    List.getElem?_eq_getElem hi]
  rfl

/-- A key of three bytes on a buffer of eight: two whole blocks and a tail of two. -/
theorem decrypt_xor_cyclic_witness :
    [1, 2, 4] ≠ ([] : List Nat) ∧
    ∃ out, decrypt [1, 2, 4] [0, 7, 0, 0, 9, 0, 0, 0] = .ok out ∧
      out.length = [0, 7, 0, 0, 9, 0, 0, 0].length ∧
      ∀ i, i < [0, 7, 0, 0, 9, 0, 0, 0].length →
        out.getD i 0
          = [0, 7, 0, 0, 9, 0, 0, 0].getD i 0 ^^^ [1, 2, 4].getD (i % [1, 2, 4].length) 0 :=
  ⟨by decide, decrypt_xor_cyclic [1, 2, 4] [0, 7, 0, 0, 9, 0, 0, 0] (by decide)⟩

/-- C2: with a non-empty key, `decrypt` applied twice gives the buffer back. -/
theorem decrypt_involution (keydb data : List Nat) (hk : keydb ≠ []) :
    ∃ mid, decrypt keydb data = .ok mid ∧ decrypt keydb mid = .ok data := by
  obtain ⟨mid, h1, h2⟩ := decrypt_getElem? keydb data hk
  obtain ⟨out, h3, h4⟩ := decrypt_getElem? keydb mid hk
  refine ⟨mid, h1, ?_⟩
  rw [h3]
  congr 1
  apply List.ext_getElem?
  intro i
  rw [h4 i, h2 i]
  cases data[i]? with
  | none => rfl
  | some x => simp [Nat.xor_cancel_right]

/-- The buffer `[0x10 .. 0x60]` under the key `[0xFF]`: twice `decrypt` is the identity. -/
theorem decrypt_involution_witness :
    [0xFF] ≠ ([] : List Nat) ∧
    ∃ mid, decrypt [0xFF] [0x10, 0x20, 0x30, 0x40, 0x50, 0x60] = .ok mid ∧
      decrypt [0xFF] mid = .ok [0x10, 0x20, 0x30, 0x40, 0x50, 0x60] :=
  ⟨by decide, decrypt_involution [0xFF] [0x10, 0x20, 0x30, 0x40, 0x50, 0x60] (by decide)⟩


/-! ## Accumulation: closed form -/

theorem accumulate_prefix (image last : List Nat) (n : Nat)
    (hn : n ≤ last.length) :
    ∃ out, (List.range n).foldlM
        (fun (st : List Nat × List Nat) j =>
          match st.2[j]? with
          | none => Except.error Fault.outOfBounds
          | some l => Except.ok (st.1.set j ((st.1.getD j 0 + l) % 256), st.2))
        (image, last) = .ok (out, last) ∧
      ∀ i, out[i]? =
        if i < n then (image[i]?).map (fun x => (x + last.getD i 0) % 256) else image[i]? := by
  induction n with
  | zero => exact ⟨image, rfl, fun i => by simp⟩
  | succ n ih =>
    obtain ⟨out, h1, h2⟩ := ih (by omega)
    rw [List.range_succ, List.foldlM_append, h1]
    have hl : last[n]? = some (last.getD n 0) := by
      rw [List.getD_eq_getElem?_getD, List.getElem?_eq_getElem (by omega)]; rfl
    refine ⟨out.set n ((out.getD n 0 + last.getD n 0) % 256), ?_, fun i => ?_⟩
    · simp only [List.foldlM_cons, List.foldlM_nil]
      show (match last[n]? with
          | none => Except.error Fault.outOfBounds
          | some l => Except.ok (out.set n ((out.getD n 0 + l) % 256), last)) >>= pure = _
      rw [hl]; rfl
    · rw [List.getElem?_set]
      by_cases hi : n = i
      · subst hi
        have e := h2 n
        rw [if_neg (Nat.lt_irrefl n)] at e
        have hlen : out.length = image.length := by
          apply length_eq_of_getElem?_map out image
            (fun i x => if i < n then (x + last.getD i 0) % 256 else x)
          intro i; rw [h2 i]; split <;> simp
        rw [if_pos rfl, if_pos (Nat.lt_succ_self n), List.getD_eq_getElem?_getD, e]
        by_cases hlt : n < image.length
        · simp [hlen, hlt, List.getElem?_eq_getElem hlt]
        · have : image[n]? = none := List.getElem?_eq_none (by omega)
          simp [hlen, hlt, this]
      · rw [if_neg hi, h2 i]
        by_cases hc : i < n
        · rw [if_pos hc, if_pos (by omega)]
        · rw [if_neg hc, if_neg (by omega)]

/-- Closed form of the accumulation loop when `last` is at least as long as `image`. -/
theorem accumulate_getElem? (image last : List Nat) (h : image.length ≤ last.length) :
    ∃ out, accumulate image last = .ok (out, last) ∧
      ∀ i, out[i]? = (image[i]?).map (fun x => (x + last.getD i 0) % 256) := by
  obtain ⟨out, h1, h2⟩ := accumulate_prefix image last image.length h
  refine ⟨out, h1, fun i => ?_⟩
  rw [h2 i]
  by_cases hi : i < image.length
  · rw [if_pos hi]
  · rw [if_neg hi]
    have : image[i]? = none := List.getElem?_eq_none (by omega)
    simp [this]

/-- C7: for a previous frame `prev` and a decoded delta of the same length `n`, the
accumulation loop gives a buffer of length `n` whose byte `i` is
`(prev[i] + delta[i]) mod 256`, and `prev` is the same buffer afterwards. -/
theorem accumulate_mod256 (prev delta : List Nat) (h : prev.length = delta.length) :
    ∃ out, accumulate delta prev = .ok (out, prev) ∧ out.length = delta.length ∧
      ∀ i, i < delta.length → out.getD i 0 = (prev.getD i 0 + delta.getD i 0) % 256 := by
  obtain ⟨out, h1, h2⟩ := accumulate_getElem? delta prev (by omega)
  refine ⟨out, h1, length_eq_of_getElem?_map out delta _ h2, fun i hi => ?_⟩
  rw [List.getD_eq_getElem?_getD, h2 i, List.getD_eq_getElem?_getD delta,
    List.getElem?_eq_getElem hi]
  simp [Nat.add_comm]

/-- Wraparound without saturation: 200 + 100 is 44, 255 + 1 is 0. -/
theorem accumulate_mod256_witness :
    [200, 255, 7].length = [100, 1, 0].length ∧
    ∃ out, accumulate [100, 1, 0] [200, 255, 7] = .ok (out, [200, 255, 7]) ∧
      out.length = [100, 1, 0].length ∧
      ∀ i, i < [100, 1, 0].length →
        out.getD i 0 = ([200, 255, 7].getD i 0 + [100, 1, 0].getD i 0) % 256 :=
  ⟨by decide, accumulate_mod256 [200, 255, 7] [100, 1, 0] (by decide)⟩

theorem subtractByte_cancel (p d : Nat) (hp : p < 256) :
    (subtractByte 0 d + (d + p) % 256) % 256 = p := by
  unfold subtractByte
  omega

/-- C8: for buffers `P` and `D` of equal length (bytes: every entry of `P` is below 256),
accumulating `D` onto `P` and then `subtract(D)` onto the result gives `P` back. -/
theorem accumulate_subtract_inverse (P D : List Nat) (h : P.length = D.length)
    (hP : ∀ p ∈ P, p < 256) :
    ∃ s, accumulate D P = .ok (s, P) ∧ accumulate (subtract D) s = .ok (P, s) := by
  obtain ⟨s, h1, h2⟩ := accumulate_getElem? D P (by omega)
  have hs : s.length = D.length := length_eq_of_getElem?_map s D _ h2
  obtain ⟨t, h3, h4⟩ := accumulate_getElem? (subtract D) s (by simp [subtract, hs])
  refine ⟨s, h1, ?_⟩
  rw [h3]
  have : t = P := by
    apply List.ext_getElem?
    intro i
    rw [h4 i]
    by_cases hi : i < P.length
    · have hiD : i < D.length := by omega
      have e1 : (subtract D)[i]? = some (subtractByte 0 D[i]) := by
        simp [subtract, List.getElem?_eq_getElem hiD]
      have e2 : s.getD i 0 = (D[i] + P[i]) % 256 := by
        rw [List.getD_eq_getElem?_getD, h2 i, List.getElem?_eq_getElem hiD,
          List.getD_eq_getElem?_getD, List.getElem?_eq_getElem hi]
        rfl
      rw [e1, e2, List.getElem?_eq_getElem hi]
      simp only [Option.map_some']
      rw [subtractByte_cancel _ _ (hP _ (List.getElem_mem hi))]
    · have e1 : (subtract D)[i]? = none := List.getElem?_eq_none (by simp [subtract]; omega)
      have e2 : P[i]? = none := List.getElem?_eq_none (by omega)
      rw [e1, e2]; rfl
  rw [this]

/-- Wraparound both ways on three bytes. -/
theorem accumulate_subtract_inverse_witness :
    [200, 255, 7].length = [100, 1, 0].length ∧ (∀ p ∈ [200, 255, 7], p < 256) ∧
    ∃ s, accumulate [100, 1, 0] [200, 255, 7] = .ok (s, [200, 255, 7]) ∧
      accumulate (subtract [100, 1, 0]) s = .ok ([200, 255, 7], s) :=
  ⟨by decide, by decide,
    accumulate_subtract_inverse [200, 255, 7] [100, 1, 0] (by decide) (by decide)⟩

/-! ## `decompress_rle`: counts, runs and slots -/

theorem and_0x7F (r0 : Nat) : r0 &&& 0x7F = r0 % 128 :=
  Nat.and_pow_two_sub_one_eq_mod r0 7

/-- The bit expression of the extended count as arithmetic. -/
theorem count_bits (r0 r1 : Nat) (h1 : r1 < 256) :
    (((r0 &&& 0x7F) <<< 8) ||| r1) = (r0 % 128) * 256 + r1 := by
  rw [and_0x7F, Nat.shiftLeft_eq]
  have h := Nat.mul_add_lt_is_or (i := 8) (b := r1) (by simpa using h1) (r0 % 128)
  rw [Nat.mul_comm] at h
  exact h.symm

theorem count_bits_shift (r0 : Nat) : ((r0 &&& 0x7F) <<< 8) % 65536 = (r0 &&& 0x7F) <<< 8 := by
  rw [and_0x7F, Nat.shiftLeft_eq]
  have : r0 % 128 < 128 := Nat.mod_lt _ (by decide)
  apply Nat.mod_eq_of_lt
  show r0 % 128 * 256 < 65536
  omega

/-- On a payload of bytes the `uint16_t` computation of the source is the count of the
spec: nothing wraps. -/
theorem readCount_eq_specCount (input : List Nat) (hb : ∀ b ∈ input, b < 256) (pin : Nat) :
    readCount input pin =
      match specCount input pin with
      | some r => .ok r
      | none => .error .outOfBounds := by
  unfold readCount specCount readByte
  cases h0 : input[pin]? with
  | none => rfl
  | some r0 =>
    by_cases hr : r0 < 0x80
    · have : ¬ r0 ≥ 0x80 := by omega
      simp [hr, this, bind, Except.bind, pure, Except.pure]
    · have hge : r0 ≥ 0x80 := by omega
      cases h1 : input[pin + 1]? with
      | none => simp [hr, hge, h1, bind, Except.bind]
      | some r1 =>
        have hr1 : r1 < 256 := hb r1 (List.getElem?_mem h1)
        have e : (((((r0 &&& 0x7F) <<< 8) % 65536) ||| r1) + 0x80) % 65536
            = (((r0 &&& 0x7F) <<< 8) ||| r1) + 0x80 := by
          rw [count_bits_shift, count_bits r0 r1 hr1]
          have : r0 % 128 < 128 := Nat.mod_lt _ (by decide)
          apply Nat.mod_eq_of_lt
          omega
        simp only [hr, hge, h1, bind, Except.bind, pure, Except.pure, if_true, if_false, e]

theorem slotCount_eq_zero (size bands p : Nat) (hB : 1 ≤ bands) (h : size ≤ p) :
    slotCount size bands p = 0 := by
  unfold slotCount
  have : size - p = 0 := by omega
  rw [this, Nat.zero_add]
  exact Nat.div_eq_of_lt (by omega)

theorem slotCount_succ (size bands p : Nat) (hB : 1 ≤ bands) (h : p < size) :
    slotCount size bands p = slotCount size bands (p + bands) + 1 := by
  unfold slotCount
  by_cases h2 : p + bands ≤ size
  · have : size - p + (bands - 1) = (size - (p + bands) + (bands - 1)) + bands := by omega
    rw [this, Nat.add_div_right _ (by omega)]
  · have e1 : size - (p + bands) = 0 := by omega
    rw [e1, Nat.zero_add, Nat.div_eq_of_lt (by omega : bands - 1 < bands)]
    have : size - p + (bands - 1) = (size - p - 1) + bands := by omega
    rw [this, Nat.add_div_right _ (by omega), Nat.div_eq_of_lt (by omega)]

theorem slotCount_pos_iff (size bands p : Nat) (hB : 1 ≤ bands) :
    0 < slotCount size bands p ↔ p < size := by
  constructor
  · intro h
    by_contra hc
    rw [slotCount_eq_zero size bands p hB (by omega)] at h
    exact Nat.lt_irrefl 0 h
  · intro h
    rw [slotCount_succ size bands p hB h]
    exact Nat.succ_pos _

theorem writeStrided_length (bands : Nat) (vs : List Nat) (out : List Nat) (pout : Nat) :
    (writeStrided bands out pout vs).length = out.length := by
  induction vs generalizing out pout with
  | nil => rfl
  | cons v vs ih => simp [writeStrided, ih]

theorem writeStrided_append (bands : Nat) (vs ws : List Nat) (out : List Nat) (pout : Nat) :
    writeStrided bands out pout (vs ++ ws) =
      writeStrided bands (writeStrided bands out pout vs) (pout + vs.length * bands) ws := by
  induction vs generalizing out pout with
  | nil => simp [writeStrided]
  | cons v vs ih =>
    show writeStrided bands (out.set pout v) (pout + bands) (vs ++ ws) = _
    rw [ih, List.length_cons, Nat.succ_mul]
    simp only [writeStrided]
    congr 1
    omega

/-- The run loop stores `min reps m` copies of `b`, where `m` is the number of slots of the
band that are still empty. -/
theorem runLoop_eq (b bands size : Nat) (hB : 1 ≤ bands) (reps pout : Nat) (out : List Nat) :
    runLoop b bands size reps pout out =
      (pout + min reps (slotCount size bands pout) * bands,
        writeStrided bands out pout
          (List.replicate (min reps (slotCount size bands pout)) b)) := by
  induction reps generalizing pout out with
  | zero => simp [runLoop, writeStrided]
  | succ reps ih =>
    unfold runLoop
    by_cases h : pout < size
    · rw [if_pos h, ih, slotCount_succ size bands pout hB h, Nat.succ_min_succ,
        List.replicate_succ, Nat.succ_mul]
      simp only [writeStrided]
      congr 1
      omega
    · rw [if_neg h, slotCount_eq_zero size bands pout hB (by omega)]
      simp [writeStrided]

theorem slotCount_add_mul (size bands : Nat) (hB : 1 ≤ bands) (k p : Nat)
    (hk : k ≤ slotCount size bands p) :
    slotCount size bands (p + k * bands) = slotCount size bands p - k := by
  induction k generalizing p with
  | zero => simp
  | succ k ih =>
    have hp : p < size := (slotCount_pos_iff size bands p hB).mp (by omega)
    have e := slotCount_succ size bands p hB hp
    have := ih (p + bands) (by omega)
    rw [Nat.succ_mul, show p + (k * bands + bands) = p + bands + k * bands by omega, this]
    omega

theorem bandLoop_done (input : List Nat) (size bands fuel pin pout last_b : Nat)
    (out : List Nat) (h : size ≤ pout) :
    bandLoop input size bands fuel pin pout last_b out = .ok (pin, out) := by
  have : ¬ pout < size := by omega
  cases fuel <;> simp [bandLoop, this]

theorem ofSpec_map {α β γ : Type} (g : β → γ) (h : α → β) (o : Option α) :
    ofSpec g (o.map h) = ofSpec (fun r => g (h r)) o := by
  cases o <;> rfl

theorem readByte_some (input : List Nat) (pin b : Nat) (h : input[pin]? = some b) :
    readByte input pin = .ok b := by
  simp [readByte, h]

theorem readByte_none (input : List Nat) (pin : Nat) (h : input[pin]? = none) :
    readByte input pin = .error .outOfBounds := by
  simp [readByte, h]

theorem bandLoop_eq_spec (input : List Nat) (hb : ∀ b ∈ input, b < 256)
    (size bands : Nat) (hB : 1 ≤ bands) (f' : Nat) :
    ∀ (f pin pout last_b : Nat) (out : List Nat),
      slotCount size bands pout ≤ f' → slotCount size bands pout ≤ f →
      bandLoop input size bands f pin pout last_b out =
        ofSpec (fun r => (r.2, writeStrided bands out pout r.1))
          (specBandRest input f' pin last_b (slotCount size bands pout)) := by
  induction f' with
  | zero =>
    intro f pin pout last_b out h1 _
    have h0 : slotCount size bands pout = 0 := by omega
    have hp : size ≤ pout := by
      by_contra hc
      have := (slotCount_pos_iff size bands pout hB).mpr (by omega)
      omega
    rw [bandLoop_done _ _ _ _ _ _ _ _ hp, h0]
    simp [specBandRest, ofSpec, writeStrided]
  | succ f' ih =>
    intro f pin pout last_b out h1 h2
    by_cases hp : size ≤ pout
    · rw [bandLoop_done _ _ _ _ _ _ _ _ hp, slotCount_eq_zero size bands pout hB hp]
      simp [specBandRest, ofSpec, writeStrided]
    · have hp' : pout < size := by omega
      have hs := slotCount_succ size bands pout hB hp'
      obtain ⟨f0, rfl⟩ : ∃ f0, f = f0 + 1 := ⟨f - 1, by omega⟩
      rw [hs]
      unfold bandLoop specBandRest
      simp only [hp', if_true]
      cases hin : input[pin]? with
      | none =>
        rw [readByte_none _ _ hin]
        rfl
      | some b =>
        rw [readByte_some _ _ _ hin]
        simp only [bind, Except.bind]
        by_cases hlb : last_b = b
        · subst hlb
          simp only [if_true]
          rw [readCount_eq_specCount input hb]
          cases hc : specCount input (pin + 1) with
          | none => rfl
          | some r =>
            obtain ⟨n, pos2⟩ := r
            simp only []
            rw [runLoop_eq _ _ _ hB]
            simp only []
            by_cases hn : n < slotCount size bands (pout + bands)
            · have hmin : min n (slotCount size bands (pout + bands)) = n := by omega
              have hsc := slotCount_add_mul size bands hB n (pout + bands) (by omega)
              have hlt : pout + bands + n * bands < size :=
                (slotCount_pos_iff size bands _ hB).mp (by omega)
              have hsc2 := slotCount_succ size bands _ hB hlt
              rw [hmin]
              simp only [hlt, hn, if_true]
              cases hin2 : input[pos2]? with
              | none =>
                rw [readByte_none _ _ hin2]
                rfl
              | some b2 =>
                rw [readByte_some _ _ _ hin2]
                simp only []
                rw [ih _ _ _ _ _ (by omega) (by omega), ofSpec_map]
                have e : slotCount size bands (pout + bands + n * bands + bands)
                    = slotCount size bands (pout + bands) - n - 1 := by omega
                rw [e]
                congr 1
                funext r
                simp only [writeStrided, Prod.mk.injEq, true_and]
                rw [writeStrided_append, List.length_replicate]
                simp only [writeStrided]
            · have hmin : min n (slotCount size bands (pout + bands))
                  = slotCount size bands (pout + bands) := by omega
              have hsc := slotCount_add_mul size bands hB (slotCount size bands (pout + bands))
                (pout + bands) (le_refl _)
              have hge : ¬ pout + bands + slotCount size bands (pout + bands) * bands < size := by
                intro hlt
                have := (slotCount_pos_iff size bands _ hB).mpr hlt
                omega
              rw [hmin]
              simp only [hge, hn, if_false]
              rw [bandLoop_done _ _ _ _ _ _ _ _ (by omega)]
              simp only [ofSpec, writeStrided]
        · have hlb2 : ¬ b = last_b := fun h => hlb h.symm
          simp only [hlb, hlb2, if_false]
          rw [ih _ _ _ _ _ (by omega) (by omega), ofSpec_map]
          simp only [writeStrided]

theorem slotCount_le (size bands p : Nat) (hB : 1 ≤ bands) (hp : bands ≤ p + 1) :
    slotCount size bands p ≤ size := by
  by_cases h : size ≤ p
  · rw [slotCount_eq_zero size bands p hB h]
    exact Nat.zero_le _
  · unfold slotCount
    exact Nat.le_trans (Nat.div_le_self _ _) (by omega)

/-- The loop over the bands is the chained per-band algorithm of the spec, as long as every
band has a first slot (`k + n ≤ size`). -/
theorem bandsLoop_eq_spec (input : List Nat) (hb : ∀ b ∈ input, b < 256)
    (size bands : Nat) (hB : 1 ≤ bands) (n : Nat) :
    ∀ (k pin : Nat) (out : List Nat), k + n ≤ size →
      bandsLoop input size bands n k pin out =
        ofSpec (fun r => (r.2, writeBands bands out k r.1))
          (specBands input size bands n k pin) := by
  induction n with
  | zero =>
    intro k pin out _
    rfl
  | succ n ih =>
    intro k pin out hk
    have hks : k < size := by omega
    have hs := slotCount_succ size bands k hB hks
    unfold bandsLoop specBands
    rw [hs]
    unfold specBand
    cases hin : input[pin]? with
    | none =>
      rw [readByte_none _ _ hin]
      rfl
    | some b0 =>
      rw [readByte_some _ _ _ hin]
      have hnot : ¬ k ≥ size := by omega
      simp only [bind, Except.bind, hnot, if_false]
      rw [bandLoop_eq_spec input hb size bands hB (slotCount size bands (k + bands))
        size (pin + 1) (k + bands) b0 (out.set k b0) (le_refl _)
        (slotCount_le size bands (k + bands) hB (by omega))]
      cases hr : specBandRest input (slotCount size bands (k + bands)) (pin + 1) b0
          (slotCount size bands (k + bands)) with
      | none => rfl
      | some r =>
        obtain ⟨vs, p⟩ := r
        simp only [ofSpec, Option.map_some', pure, Except.pure]
        rw [ih (k + 1) p _ (by omega)]
        cases specBands input size bands n (k + 1) p with
        | none => rfl
        | some r => simp only [ofSpec, Option.map_some', writeBands, writeStrided]

/-! ## Where the values of a band end up in the output -/

theorem writeStrided_getElem?_other (bands : Nat) (vs : List Nat) (out : List Nat)
    (p idx : Nat) (h : ∀ j, j < vs.length → idx ≠ p + j * bands) :
    (writeStrided bands out p vs)[idx]? = out[idx]? := by
  induction vs generalizing out p with
  | nil => rfl
  | cons v vs ih =>
    simp only [writeStrided]
    rw [ih]
    · have h0 := h 0 (by simp)
      rw [List.getElem?_set]
      have : ¬ p = idx := by omega
      rw [if_neg this]
    · intro j hj
      have := h (j + 1) (by simpa using hj)
      rw [Nat.succ_mul] at this
      omega

theorem writeStrided_getElem?_written (bands : Nat) (hB : 1 ≤ bands) (vs : List Nat)
    (out : List Nat) (p j : Nat) (hj : j < vs.length) (hp : p + j * bands < out.length) :
    (writeStrided bands out p vs)[p + j * bands]? = vs[j]? := by
  induction vs generalizing out p j with
  | nil => simp at hj
  | cons v vs ih =>
    simp only [writeStrided]
    cases j with
    | zero =>
      rw [writeStrided_getElem?_other]
      · simp only [Nat.zero_mul, Nat.add_zero] at hp ⊢
        simp [List.getElem?_set, hp]
      · intro j _
        have : bands ≤ bands + j * bands := Nat.le_add_right _ _
        omega
    | succ j =>
      have e : p + (j + 1) * bands = p + bands + j * bands := by rw [Nat.succ_mul]; omega
      rw [e] at hp ⊢
      rw [ih _ _ _ (by simpa using hj) (by simpa using hp)]
      simp

theorem writeStrided_getElem?_residue (bands : Nat) (vs : List Nat) (out : List Nat)
    (k idx : Nat) (h : idx % bands ≠ k % bands) :
    (writeStrided bands out k vs)[idx]? = out[idx]? := by
  apply writeStrided_getElem?_other
  intro j _ he
  apply h
  rw [he, Nat.add_mul_mod_self_right]

theorem slot_lt_size (size bands : Nat) (hB : 1 ≤ bands) (p j : Nat)
    (hj : j < slotCount size bands p) : p + j * bands < size := by
  have := slotCount_add_mul size bands hB j p (by omega)
  exact (slotCount_pos_iff size bands _ hB).mp (by omega)

theorem writeBands_length (bands : Nat) (vss : List (List Nat)) (out : List Nat) (k : Nat) :
    (writeBands bands out k vss).length = out.length := by
  induction vss generalizing out k with
  | nil => rfl
  | cons vs rest ih => simp [writeBands, ih, writeStrided_length]

theorem writeBands_getElem?_other (bands : Nat) (vss : List (List Nat)) (out : List Nat)
    (k idx : Nat) (hk : k + vss.length ≤ bands)
    (h : idx % bands < k ∨ k + vss.length ≤ idx % bands) :
    (writeBands bands out k vss)[idx]? = out[idx]? := by
  induction vss generalizing out k with
  | nil => rfl
  | cons vs rest ih =>
    simp only [writeBands]
    simp only [List.length_cons] at hk h
    rw [ih _ _ (by omega) (by omega)]
    apply writeStrided_getElem?_residue
    rw [Nat.mod_eq_of_lt (by omega : k < bands)]
    omega

/-- Slot `j` of band `k + i` of the filled buffer holds value `j` of the band. -/
theorem writeBands_getElem?_written (size bands : Nat) (hB : 1 ≤ bands)
    (vss : List (List Nat)) (out : List Nat) (k i j : Nat) (hout : out.length = size)
    (hk : k + vss.length ≤ bands) (hi : i < vss.length)
    (hlen : (vss.getD i []).length = slotCount size bands (k + i))
    (hj : j < slotCount size bands (k + i)) :
    (writeBands bands out k vss)[k + i + j * bands]? = (vss.getD i [])[j]? := by
  induction vss generalizing out k i with
  | nil => simp at hi
  | cons vs rest ih =>
    simp only [writeBands]
    simp only [List.length_cons] at hk hi
    cases i with
    | zero =>
      simp only [Nat.add_zero, List.getD_cons_zero] at hlen hj ⊢
      rw [writeBands_getElem?_other _ _ _ _ _ (by omega)]
      · apply writeStrided_getElem?_written bands hB
        · omega
        · rw [hout]
          exact slot_lt_size size bands hB k j hj
      · left
        rw [Nat.add_mul_mod_self_right, Nat.mod_eq_of_lt (by omega : k < bands)]
        omega
    | succ i =>
      simp only [List.getD_cons_succ] at hlen ⊢
      have e : k + (i + 1) = k + 1 + i := by omega
      rw [e] at hlen hj ⊢
      exact ih _ _ _ (by rw [writeStrided_length]; exact hout) (by omega) (by omega) hlen hj

/-! ## The per-band algorithm: lengths and the input cursor -/

theorem specCount_pos (input : List Nat) (pos n p : Nat)
    (h : specCount input pos = some (n, p)) : pos < p := by
  unfold specCount at h
  cases h0 : input[pos]? with
  | none => simp [h0] at h
  | some r0 =>
    simp only [h0] at h
    split at h
    · simp only [Option.some.injEq, Prod.mk.injEq] at h; omega
    · cases h1 : input[pos + 1]? with
      | none => simp [h1] at h
      | some r1 =>
        simp only [h1, Option.some.injEq, Prod.mk.injEq] at h; omega

theorem specBandRest_length (input : List Nat) (fuel : Nat) :
    ∀ (pos prev slots : Nat) (vs : List Nat) (p : Nat),
      specBandRest input fuel pos prev slots = some (vs, p) →
      vs.length = slots ∧ pos ≤ p := by
  induction fuel with
  | zero =>
    intro pos prev slots vs p h
    cases slots with
    | zero =>
      simp only [specBandRest, Option.some.injEq, Prod.mk.injEq] at h
      obtain ⟨rfl, rfl⟩ := h
      exact ⟨rfl, le_refl _⟩
    | succ s => simp [specBandRest] at h
  | succ fuel ih =>
    intro pos prev slots vs p h
    cases slots with
    | zero =>
      simp only [specBandRest, Option.some.injEq, Prod.mk.injEq] at h
      obtain ⟨rfl, rfl⟩ := h
      exact ⟨rfl, le_refl _⟩
    | succ s =>
      unfold specBandRest at h
      cases hin : input[pos]? with
      | none => simp [hin] at h
      | some b =>
        simp only [hin] at h
        by_cases hbp : b = prev
        · simp only [hbp, if_true] at h
          cases hc : specCount input (pos + 1) with
          | none => simp [hc] at h
          | some r =>
            obtain ⟨n, pos2⟩ := r
            have hpos := specCount_pos _ _ _ _ hc
            simp only [hc] at h
            by_cases hn : n < s
            · simp only [hn, if_true] at h
              cases hin2 : input[pos2]? with
              | none => simp [hin2] at h
              | some b2 =>
                simp only [hin2] at h
                cases hr : specBandRest input fuel (pos2 + 1) b2 (s - n - 1) with
                | none => simp [hr] at h
                | some r =>
                  obtain ⟨ws, q⟩ := r
                  obtain ⟨h1, h2⟩ := ih _ _ _ _ _ hr
                  simp only [hr, Option.map_some', Option.some.injEq, Prod.mk.injEq] at h
                  obtain ⟨rfl, rfl⟩ := h
                  refine ⟨?_, by omega⟩
                  simp [h1]
                  omega
            · simp only [hn, if_false, Option.some.injEq, Prod.mk.injEq] at h
              obtain ⟨rfl, rfl⟩ := h
              exact ⟨by simp, by omega⟩
        · simp only [hbp, if_false] at h
          cases hr : specBandRest input fuel (pos + 1) b s with
          | none => simp [hr] at h
          | some r =>
            obtain ⟨ws, q⟩ := r
            obtain ⟨h1, h2⟩ := ih _ _ _ _ _ hr
            simp only [hr, Option.map_some', Option.some.injEq, Prod.mk.injEq] at h
            obtain ⟨rfl, rfl⟩ := h
            exact ⟨by simp [h1], by omega⟩

/-- A band that is decoded has one value for each of its slots, and its decoding moves the
input cursor forward. -/
theorem specBand_length (input : List Nat) (pos slots : Nat) (vs : List Nat) (p : Nat)
    (h : specBand input pos slots = some (vs, p)) : vs.length = slots ∧ pos < p := by
  cases slots with
  | zero => simp [specBand] at h
  | succ s =>
    unfold specBand at h
    cases hin : input[pos]? with
    | none => simp [hin] at h
    | some b0 =>
      simp only [hin] at h
      cases hr : specBandRest input s (pos + 1) b0 s with
      | none => simp [hr] at h
      | some r =>
        obtain ⟨ws, q⟩ := r
        obtain ⟨h1, h2⟩ := specBandRest_length _ _ _ _ _ _ _ hr
        simp only [hr, Option.map_some', Option.some.injEq, Prod.mk.injEq] at h
        obtain ⟨rfl, rfl⟩ := h
        exact ⟨by simp [h1], by omega⟩

/-- The chained decoding as a family of bands: band `k + i` starts where band `k + i - 1`
stopped. -/
theorem specBands_chain (input : List Nat) (size bands n : Nat) :
    ∀ (k pos : Nat) (vss : List (List Nat)) (pend : Nat),
      specBands input size bands n k pos = some (vss, pend) →
      vss.length = n ∧
      ∃ start : Nat → Nat, start k = pos ∧ start (k + n) = pend ∧
        ∀ i, i < n →
          specBand input (start (k + i)) (slotCount size bands (k + i))
            = some (vss.getD i [], start (k + i + 1)) := by
  induction n with
  | zero =>
    intro k pos vss pend h
    simp only [specBands, Option.some.injEq, Prod.mk.injEq] at h
    obtain ⟨rfl, rfl⟩ := h
    exact ⟨rfl, fun _ => pos, rfl, rfl, fun i hi => absurd hi (Nat.not_lt_zero i)⟩
  | succ n ih =>
    intro k pos vss pend h
    unfold specBands at h
    cases hb : specBand input pos (slotCount size bands k) with
    | none => simp [hb] at h
    | some r =>
      obtain ⟨vs, p⟩ := r
      simp only [hb] at h
      cases hr : specBands input size bands n (k + 1) p with
      | none => simp [hr] at h
      | some r =>
        obtain ⟨rest, q⟩ := r
        simp only [hr, Option.map_some', Option.some.injEq, Prod.mk.injEq] at h
        obtain ⟨rfl, rfl⟩ := h
        obtain ⟨hlen, start, h1, h2, h3⟩ := ih _ _ _ _ hr
        refine ⟨by simp [hlen], fun x => if x ≤ k then pos else start x, ?_, ?_, ?_⟩
        · simp
        · have : ¬ k + (n + 1) ≤ k := by omega
          simp only [this, if_false]
          rw [← h2]
          congr 1
          omega
        · intro i hi
          cases i with
          | zero =>
            have : ¬ k + 1 ≤ k := by omega
            simp only [Nat.add_zero, le_refl, if_true, List.getD_cons_zero, h1, this, if_false]
            exact hb
          | succ i =>
            have e1 : ¬ k + (i + 1) ≤ k := by omega
            have e2 : ¬ k + (i + 1) + 1 ≤ k := by omega
            simp only [e1, e2, if_false, List.getD_cons_succ]
            have := h3 i (by omega)
            rw [show k + (i + 1) = k + 1 + i by omega]
            exact this

/-! ## `decompress_rle` against the per-band algorithm of the spec -/

/-- With `1 ≤ bands ≤ size`, `decompress_rle` is the chained per-band algorithm written
into the zero-filled buffer; the only way to stop early is a read outside the payload. -/
theorem decompress_rle_eq_spec (input : List Nat) (hb : ∀ b ∈ input, b < 256)
    (size bands : Nat) (h1 : 1 ≤ bands) (h2 : bands ≤ size) :
    decompress_rle input size bands =
      ofSpec (fun r => writeBands bands (List.replicate size 0) 0 r.1)
        (specBands input size bands bands 0 0) := by
  unfold decompress_rle decodeBands
  rw [bandsLoop_eq_spec input hb size bands h1 bands 0 0 _ (by omega)]
  cases specBands input size bands bands 0 0 <;> rfl

/-- C3: for a payload of bytes and `1 ≤ B ≤ S`, when `decompress_rle` returns a buffer
(it read only bytes inside the payload) the buffer has `S` bytes, and there are input
positions `start 0 = 0 ≤ start 1 ≤ ... ≤ start B` such that for every band `k < B` the
per-band algorithm of the spec, started at `start k`, stops at `start (k + 1)` and yields
the values found at the offsets `k, k + B, k + 2 B, ...` of the buffer. -/
theorem decompress_rle_bands (input : List Nat) (hb : ∀ b ∈ input, b < 256)
    (S B : Nat) (h1 : 1 ≤ B) (h2 : B ≤ S) (out : List Nat)
    (hok : decompress_rle input S B = .ok out) :
    out.length = S ∧
    ∃ (start : Nat → Nat) (vals : Nat → List Nat), start 0 = 0 ∧
      ∀ k, k < B →
        specBand input (start k) (slotCount S B k) = some (vals k, start (k + 1)) ∧
        start k ≤ start (k + 1) ∧
        (vals k).length = slotCount S B k ∧
        ∀ j, j < slotCount S B k → out[k + j * B]? = (vals k)[j]? := by
  rw [decompress_rle_eq_spec input hb S B h1 h2] at hok
  cases hs : specBands input S B B 0 0 with
  | none => simp [hs, ofSpec] at hok
  | some r =>
    obtain ⟨vss, pend⟩ := r
    simp only [hs, ofSpec, Except.ok.injEq] at hok
    subst hok
    obtain ⟨hlen, start, hs0, -, hchain⟩ := specBands_chain input S B B 0 0 vss pend hs
    refine ⟨by rw [writeBands_length, List.length_replicate], start,
      fun k => vss.getD k [], hs0, fun k hk => ?_⟩
    have hk' := hchain k hk
    simp only [Nat.zero_add] at hk'
    obtain ⟨hl, hlt⟩ := specBand_length _ _ _ _ _ hk'
    refine ⟨hk', Nat.le_of_lt hlt, hl, fun j hj => ?_⟩
    have := writeBands_getElem?_written S B h1 vss (List.replicate S 0) 0 k j
      (List.length_replicate _ _) (by omega) (by omega) (by simpa using hl) (by simpa using hj)
    simpa using this

/-- Two bands of two slots each on the payload `[5, 5, 9, 7, 8]`. -/
theorem decompress_rle_bands_witness :
    (∀ b ∈ [5, 5, 9, 7, 8], b < 256) ∧ 1 ≤ 2 ∧ 2 ≤ 4 ∧
    decompress_rle [5, 5, 9, 7, 8] 4 2 = .ok [5, 7, 5, 8] ∧
    ([5, 7, 5, 8] : List Nat).length = 4 ∧
    ∃ (start : Nat → Nat) (vals : Nat → List Nat), start 0 = 0 ∧
      ∀ k, k < 2 →
        specBand [5, 5, 9, 7, 8] (start k) (slotCount 4 2 k) = some (vals k, start (k + 1)) ∧
        start k ≤ start (k + 1) ∧
        (vals k).length = slotCount 4 2 k ∧
        ∀ j, j < slotCount 4 2 k → [5, 7, 5, 8][k + j * 2]? = (vals k)[j]? :=
  ⟨by decide, by decide, by decide, by decide,
    decompress_rle_bands [5, 5, 9, 7, 8] (by decide) 4 2 (by decide) (by decide) [5, 7, 5, 8]
      (by decide)⟩

/-! ## The reference encoder is inverted by `decompress_rle` -/

theorem leadLen_le (v : Nat) (ws : List Nat) : leadLen v ws ≤ ws.length := by
  induction ws with
  | nil => simp [leadLen]
  | cons w ws ih =>
    simp only [leadLen, List.length_cons]
    split <;> omega

theorem take_leadLen (v : Nat) (ws : List Nat) (n : Nat) (h : n ≤ leadLen v ws) :
    ws.take n = List.replicate n v := by
  induction ws generalizing n with
  | nil =>
    simp only [leadLen] at h
    have : n = 0 := by omega
    subst this
    rfl
  | cons w ws ih =>
    cases n with
    | zero => rfl
    | succ n =>
      simp only [leadLen] at h
      by_cases hw : w = v
      · simp only [hw, if_true] at h
        rw [List.take_succ_cons, ih n (by omega), hw, List.replicate_succ]
      · simp only [hw, if_false] at h
        omega

theorem getElem?_of_drop {α : Type} (l : List α) (pos i : Nat) (tl : List α)
    (h : l.drop pos = tl) : l[pos + i]? = tl[i]? := by
  rw [← h, List.getElem?_drop]

theorem drop_of_drop {α : Type} (l : List α) (pos : Nat) (pre tl : List α)
    (h : l.drop pos = pre ++ tl) : l.drop (pos + pre.length) = tl := by
  rw [← List.drop_drop, h, List.drop_left]

theorem drop_cons_elim {α : Type} (l : List α) (pos : Nat) (x : α) (tl : List α)
    (h : l.drop pos = x :: tl) : l[pos]? = some x ∧ l.drop (pos + 1) = tl := by
  constructor
  · have := getElem?_of_drop l pos 0 _ h
    simpa using this
  · exact drop_of_drop l pos [x] tl h

theorem encCount_lt (n : Nat) (hn : n ≤ 32895) : ∀ x ∈ encCount n, x < 256 := by
  intro x hx
  unfold encCount at hx
  by_cases hlt : n < 0x80
  · rw [if_pos hlt] at hx
    rw [List.mem_singleton] at hx
    omega
  · rw [if_neg hlt] at hx
    simp only [List.mem_cons, List.mem_singleton, List.not_mem_nil, or_false] at hx
    rcases hx with hx | hx
    · omega
    · rw [hx]
      exact Nat.mod_lt _ (by decide)

/-- The count that `encCount` writes is the count that the spec reads. -/
theorem specCount_encCount (input : List Nat) (pos n : Nat) (tl : List Nat)
    (hn : n ≤ 32895) (h : input.drop pos = encCount n ++ tl) :
    specCount input pos = some (n, pos + (encCount n).length) := by
  have h0 := getElem?_of_drop input pos 0 _ h
  have h1 := getElem?_of_drop input pos 1 _ h
  simp only [Nat.add_zero] at h0
  unfold specCount
  unfold encCount at h0 h1 ⊢
  by_cases hlt : n < 0x80
  · simp only [hlt, if_true, List.singleton_append, List.getElem?_cons_zero] at h0
    simp [h0, hlt]
  · simp only [hlt, if_false, List.cons_append, List.getElem?_cons_zero,
      List.getElem?_cons_succ] at h0 h1
    have hr0 : ¬ 0x80 + (n - 0x80) / 256 < 0x80 := by omega
    simp only [h0, h1, hr0, hlt, if_false, List.length_cons, List.length_nil]
    rw [count_bits _ _ (Nat.mod_lt _ (by decide))]
    have e : (0x80 + (n - 0x80) / 256) % 128 = (n - 0x80) / 256 := by omega
    rw [e]
    have := Nat.div_add_mod (n - 0x80) 256
    simp only [Option.some.injEq, Prod.mk.injEq]
    exact ⟨by omega, trivial⟩

theorem specBandRest_zero_slots (input : List Nat) (f pos prev : Nat) :
    specBandRest input f pos prev 0 = some ([], pos) := by
  cases f <;> rfl

theorem encRest_cons_eq (e prev v : Nat) (rest : List Nat) :
    encRest (e + 1) prev (v :: rest) =
      if v = prev then
        v :: (encCount (min (leadLen v rest) 32895) ++
          (match rest.drop (min (leadLen v rest) 32895) with
            | [] => []
            | w :: rest2 => w :: encRest e w rest2))
      else v :: encRest e v rest := rfl

/-- The per-band algorithm of the spec reads back what `encRest` wrote. -/
theorem specBandRest_encRest (input : List Nat) (e : Nat) :
    ∀ (f : Nat) (vs : List Nat) (prev pos : Nat) (tl : List Nat),
      vs.length ≤ e → vs.length ≤ f →
      input.drop pos = encRest e prev vs ++ tl →
      specBandRest input f pos prev vs.length
        = some (vs, pos + (encRest e prev vs).length) := by
  induction e with
  | zero =>
    intro f vs prev pos tl he _ _
    have : vs = [] := List.eq_nil_of_length_eq_zero (by omega)
    subst this
    rw [List.length_nil, specBandRest_zero_slots]
    rfl
  | succ e ih =>
    intro f vs prev pos tl he hf hdrop
    cases vs with
    | nil =>
      rw [List.length_nil, specBandRest_zero_slots]
      rfl
    | cons v rest =>
      simp only [List.length_cons] at he hf
      obtain ⟨f0, rfl⟩ : ∃ f0, f = f0 + 1 := ⟨f - 1, by omega⟩
      rw [encRest_cons_eq] at hdrop ⊢
      rw [List.length_cons]
      unfold specBandRest
      by_cases hv : v = prev
      · subst hv
        simp only [if_true] at hdrop ⊢
        have hn1 : min (leadLen v rest) 32895 ≤ 32895 := Nat.min_le_right _ _
        have hn2 : min (leadLen v rest) 32895 ≤ leadLen v rest := Nat.min_le_left _ _
        have hn3 := leadLen_le v rest
        generalize min (leadLen v rest) 32895 = n at hdrop hn1 hn2 ⊢
        have htake := take_leadLen v rest n hn2
        simp only [List.cons_append, List.append_assoc] at hdrop
        obtain ⟨hin, hd1⟩ := drop_cons_elim input pos _ _ hdrop
        have hc := specCount_encCount input (pos + 1) n _ hn1 hd1
        have hd2 := drop_of_drop input (pos + 1) _ _ hd1
        simp only [hin, hc, if_true]
        cases hdr : rest.drop n with
        | nil =>
          have hlen : rest.length ≤ n := by
            have := congrArg List.length hdr
            simp only [List.length_drop, List.length_nil] at this
            omega
          have hnlt : ¬ n < rest.length := by omega
          have hrest : rest = List.replicate rest.length v := by
            have : n = rest.length := by omega
            subst this
            rw [← htake, List.take_length]
          simp only [hnlt, if_false, hdr, List.append_nil, List.length_cons]
          rw [← hrest]
          simp only [Option.some.injEq, Prod.mk.injEq, true_and]
          omega
        | cons w rest2 =>
          have hlen : n + (rest2.length + 1) = rest.length := by
            have := congrArg List.length hdr
            simp only [List.length_drop, List.length_cons] at this
            omega
          have hnlt : n < rest.length := by omega
          rw [hdr] at hd2
          simp only [List.cons_append] at hd2
          obtain ⟨hin2, hd3⟩ := drop_cons_elim input _ _ _ hd2
          have hrec := ih f0 rest2 w _ tl (by omega) (by omega) hd3
          have hs : rest.length - n - 1 = rest2.length := by omega
          simp only [hnlt, if_true, hin2, hs, hrec, Option.map_some', hdr]
          have hrest : rest = List.replicate n v ++ w :: rest2 := by
            rw [← htake, ← hdr, List.take_append_drop]
          simp only [Option.some.injEq, Prod.mk.injEq]
          refine ⟨by rw [← hrest], ?_⟩
          simp only [List.length_cons, List.length_append]
          omega
      · simp only [hv, if_false, List.cons_append] at hdrop ⊢
        obtain ⟨hin, hd1⟩ := drop_cons_elim input pos _ _ hdrop
        have hrec := ih f0 rest v _ tl (by omega) (by omega) hd1
        simp only [hin, hv, if_false, hrec, Option.map_some', List.length_cons]
        simp only [Option.some.injEq, Prod.mk.injEq, true_and]
        omega

theorem specBand_encBand (input : List Nat) (vs : List Nat) (pos : Nat) (tl : List Nat)
    (hvs : vs ≠ []) (hdrop : input.drop pos = encBand vs ++ tl) :
    specBand input pos vs.length = some (vs, pos + (encBand vs).length) := by
  cases vs with
  | nil => exact absurd rfl hvs
  | cons v0 rest =>
    simp only [encBand, List.cons_append] at hdrop ⊢
    obtain ⟨hin, hd1⟩ := drop_cons_elim input pos _ _ hdrop
    have hrec := specBandRest_encRest input rest.length rest.length rest v0 _ tl
      (le_refl _) (le_refl _) hd1
    simp only [List.length_cons, specBand, hin, hrec, Option.map_some', Option.some.injEq,
      Prod.mk.injEq, true_and]
    omega

theorem bandValues_length (D : List Nat) (bands k : Nat) :
    (bandValues D bands k).length = slotCount D.length bands k := by
  simp [bandValues]

theorem specBands_encodeFrom (input D : List Nat) (bands : Nat) (hB : 1 ≤ bands) (n : Nat) :
    ∀ (k pos : Nat) (tl : List Nat), k + n ≤ D.length →
      input.drop pos = encodeFrom D bands n k ++ tl →
      specBands input D.length bands n k pos
        = some (bandList D bands n k, pos + (encodeFrom D bands n k).length) := by
  induction n with
  | zero =>
    intro k pos tl _ _
    rfl
  | succ n ih =>
    intro k pos tl hk hdrop
    simp only [encodeFrom, List.append_assoc] at hdrop
    have hne : bandValues D bands k ≠ [] := by
      intro h
      have h1 := bandValues_length D bands k
      rw [h, List.length_nil] at h1
      have := (slotCount_pos_iff D.length bands k hB).mpr (by omega)
      omega
    have hb := specBand_encBand input _ pos _ hne hdrop
    rw [bandValues_length] at hb
    have hd1 := drop_of_drop input pos _ _ hdrop
    have hrec := ih (k + 1) _ tl (by omega) hd1
    simp only [specBands, hb, hrec, Option.map_some', bandList, encodeFrom,
      List.length_append, Option.some.injEq, Prod.mk.injEq, true_and]
    omega

theorem bandList_length (D : List Nat) (bands n k : Nat) :
    (bandList D bands n k).length = n := by
  induction n generalizing k with
  | zero => rfl
  | succ n ih => simp [bandList, ih]

theorem bandList_getD (D : List Nat) (bands n k i : Nat) (hi : i < n) :
    (bandList D bands n k).getD i [] = bandValues D bands (k + i) := by
  induction n generalizing k i with
  | zero => omega
  | succ n ih =>
    cases i with
    | zero => simp [bandList]
    | succ i =>
      simp only [bandList, List.getD_cons_succ]
      rw [ih (k + 1) i (by omega)]
      congr 1
      omega

theorem slot_of_lt_size (size bands : Nat) (hB : 1 ≤ bands) (p j : Nat)
    (h : p + j * bands < size) : j < slotCount size bands p := by
  by_contra hc
  have hle : slotCount size bands p ≤ j := by omega
  have h0 := slotCount_add_mul size bands hB (slotCount size bands p) p (le_refl _)
  rw [Nat.sub_self] at h0
  have hlt : p + slotCount size bands p * bands < size :=
    Nat.lt_of_le_of_lt (Nat.add_le_add_left (Nat.mul_le_mul_right _ hle) _) h
  have := (slotCount_pos_iff size bands _ hB).mpr hlt
  omega

/-- Filling the zero buffer with the bands of `D` gives `D`. -/
theorem writeBands_bandList (D : List Nat) (bands : Nat) (hB : 1 ≤ bands) :
    writeBands bands (List.replicate D.length 0) 0 (bandList D bands bands 0) = D := by
  apply List.ext_getElem?
  intro idx
  by_cases hidx : idx < D.length
  · have hdm := Nat.mod_add_div idx bands
    have hk : idx % bands < bands := Nat.mod_lt _ (by omega)
    have he : idx = idx % bands + idx / bands * bands := by
      rw [Nat.mul_comm]; exact hdm.symm
    have hj : idx / bands < slotCount D.length bands (idx % bands) :=
      slot_of_lt_size D.length bands hB _ _ (by omega)
    have hw := writeBands_getElem?_written D.length bands hB (bandList D bands bands 0)
      (List.replicate D.length 0) 0 (idx % bands) (idx / bands) (List.length_replicate _ _)
      (by rw [bandList_length]; omega) (by rw [bandList_length]; exact hk)
      (by rw [bandList_getD _ _ _ _ _ hk, bandValues_length])
      (by simpa using hj)
    rw [bandList_getD _ _ _ _ _ hk] at hw
    simp only [Nat.zero_add] at hw
    rw [← he] at hw
    rw [hw]
    unfold bandValues
    rw [List.getElem?_map, List.getElem?_range hj, Option.map_some', ← he,
      List.getD_eq_getElem?_getD, List.getElem?_eq_getElem hidx]
    rfl
  · rw [List.getElem?_eq_none (by rw [writeBands_length, List.length_replicate]; omega),
      List.getElem?_eq_none (by omega)]

theorem encRest_lt (e : Nat) : ∀ (prev : Nat) (vs : List Nat), (∀ v ∈ vs, v < 256) →
    ∀ x ∈ encRest e prev vs, x < 256 := by
  induction e with
  | zero =>
    intro prev vs _ x hx
    cases vs <;> simp [encRest] at hx
  | succ e ih =>
    intro prev vs hvs x hx
    cases vs with
    | nil => simp [encRest] at hx
    | cons v rest =>
      rw [encRest_cons_eq] at hx
      have hv : v < 256 := hvs v (List.mem_cons_self _ _)
      have hrest : ∀ y ∈ rest, y < 256 := fun y hy => hvs y (List.mem_cons_of_mem _ hy)
      split at hx
      · simp only [List.mem_cons, List.mem_append] at hx
        rcases hx with rfl | hx | hx
        · exact hv
        · exact encCount_lt _ (Nat.min_le_right _ _) x hx
        · split at hx
          · simp at hx
          · rename_i w rest2 hd
            have hsub : ∀ y ∈ w :: rest2, y < 256 := fun y hy =>
              hrest y (List.mem_of_mem_drop (hd ▸ hy))
            simp only [List.mem_cons] at hx
            rcases hx with rfl | hx
            · exact hsub _ (List.mem_cons_self _ _)
            · exact ih w rest2 (fun y hy => hsub y (List.mem_cons_of_mem _ hy)) x hx
      · simp only [List.mem_cons] at hx
        rcases hx with rfl | hx
        · exact hv
        · exact ih v rest hrest x hx

theorem bandValues_lt (D : List Nat) (hD : ∀ b ∈ D, b < 256) (bands k : Nat) :
    ∀ v ∈ bandValues D bands k, v < 256 := by
  intro v hv
  simp only [bandValues, List.mem_map, List.mem_range] at hv
  obtain ⟨j, -, rfl⟩ := hv
  rw [List.getD_eq_getElem?_getD]
  cases h : D[k + j * bands]? with
  | none => simp
  | some y => exact hD y (List.getElem?_mem h)

theorem encodeFrom_lt (D : List Nat) (hD : ∀ b ∈ D, b < 256) (bands n : Nat) :
    ∀ k, ∀ x ∈ encodeFrom D bands n k, x < 256 := by
  induction n with
  | zero => intro k x hx; simp [encodeFrom] at hx
  | succ n ih =>
    intro k x hx
    simp only [encodeFrom, List.mem_append] at hx
    rcases hx with hx | hx
    · have hbv := bandValues_lt D hD bands k
      cases hvs : bandValues D bands k with
      | nil => rw [hvs] at hx; simp [encBand] at hx
      | cons v0 rest =>
        rw [hvs] at hx hbv
        simp only [encBand, List.mem_cons] at hx
        rcases hx with rfl | hx
        · exact hbv _ (List.mem_cons_self _ _)
        · exact encRest_lt _ v0 rest (fun y hy => hbv y (List.mem_cons_of_mem _ hy)) x hx
    · exact ih (k + 1) x hx

/-- C4: `encode` is a reference encoder: for every band count `B ≥ 1` and every buffer `D`
of bytes with at least `B` of them, `decompress_rle` of the encoding succeeds and returns
`D`; so every such buffer is the decoding of some payload, whatever the length of its
runs. -/
theorem decompress_rle_encode (D : List Nat) (B : Nat) (h1 : 1 ≤ B) (h2 : B ≤ D.length)
    (hD : ∀ b ∈ D, b < 256) :
    decompress_rle (encode D B) D.length B = .ok D := by
  rw [decompress_rle_eq_spec (encode D B) (encodeFrom_lt D hD B B 0) D.length B h1 h2]
  have hs := specBands_encodeFrom (encode D B) D B h1 B 0 0 [] (by omega)
    (by simp [encode])
  rw [hs]
  simp only [ofSpec]
  rw [writeBands_bandList D B h1]

/-- A buffer of two interleaved bands with a run in each. -/
theorem decompress_rle_encode_witness :
    1 ≤ 2 ∧ 2 ≤ [5, 9, 5, 9, 5, 9, 6, 9].length ∧ (∀ b ∈ [5, 9, 5, 9, 5, 9, 6, 9], b < 256) ∧
    decompress_rle (encode [5, 9, 5, 9, 5, 9, 6, 9] 2) [5, 9, 5, 9, 5, 9, 6, 9].length 2
      = .ok [5, 9, 5, 9, 5, 9, 6, 9] :=
  ⟨by decide, by decide, by decide,
    decompress_rle_encode [5, 9, 5, 9, 5, 9, 6, 9] 2 (by decide) (by decide) (by decide)⟩

/-! ## Truncated payloads and the run-length count -/

/-- With one band, storing as many values as the buffer has cells replaces the buffer. -/
theorem writeStrided_full (vs out : List Nat) (h : vs.length = out.length) :
    writeStrided 1 out 0 vs = vs := by
  apply List.ext_getElem?
  intro idx
  by_cases hi : idx < vs.length
  · have := writeStrided_getElem?_written 1 (le_refl 1) vs out 0 idx hi (by omega)
    simpa using this
  · rw [List.getElem?_eq_none (by rw [writeStrided_length]; omega),
      List.getElem?_eq_none (by omega)]

/-- C5, the code at truncated payloads: when the payload ends before the initial byte, a
literal, the count byte, the extension byte or the literal after a run, `decompress_rle`
does not throw its "Unexpected EOF!": it reads outside the payload. -/
theorem decompress_rle_truncated :
    decompress_rle [] 1 1 = .error .outOfBounds ∧
    decompress_rle [5] 2 1 = .error .outOfBounds ∧
    decompress_rle [5, 5] 2 1 = .error .outOfBounds ∧
    decompress_rle [5, 5, 0x80] 3 1 = .error .outOfBounds ∧
    decompress_rle [5, 5, 0] 3 1 = .error .outOfBounds ∧
    decompress_rle [5] 2 1 ≠ .error .unexpectedEOF := by
  decide

/-- C6: after a repeat signal the count byte `r0 < 0x80` is the count and one input byte
is consumed; for `r0 ≥ 0x80` and the following byte `r1` the count is
`((r0 & 0x7F) * 256 + r1) + 0x80`, two bytes are consumed, and the value lies in
128..32895, so the 16-bit variable never wraps.  The count 127 is the single byte `0x7F`
and the count 128 is the byte pair `0x80 0x00`: one band, payload `[v, v, 0x7F]` and size
129 give 129 copies of `v`; payload `[v, v, 0x80, 0x00]` and size 130 give 130 copies. -/
theorem readCount_value (input : List Nat) (pin r0 : Nat) (h0 : input[pin]? = some r0)
    (hr0 : r0 < 256) :
    (r0 < 0x80 → readCount input pin = .ok (r0, pin + 1)) ∧
    (∀ r1, 0x80 ≤ r0 → input[pin + 1]? = some r1 → r1 < 256 →
      readCount input pin = .ok ((r0 &&& 0x7F) * 256 + r1 + 0x80, pin + 2) ∧
      128 ≤ (r0 &&& 0x7F) * 256 + r1 + 0x80 ∧ (r0 &&& 0x7F) * 256 + r1 + 0x80 ≤ 32895) ∧
    (∀ v, v < 256 → decompress_rle [v, v, 0x7F] 129 1 = .ok (List.replicate 129 v)) ∧
    (∀ v, v < 256 → decompress_rle [v, v, 0x80, 0x00] 130 1 = .ok (List.replicate 130 v)) := by
  refine ⟨fun hlt => ?_, fun r1 hge h1 hr1 => ?_, fun v hv => ?_, fun v hv => ?_⟩
  · have : ¬ r0 ≥ 0x80 := by omega
    simp [readCount, readByte, h0, this, bind, Except.bind, pure, Except.pure]
  · have hmod : r0 % 128 < 128 := Nat.mod_lt _ (by decide)
    have e : (((((r0 &&& 0x7F) <<< 8) % 65536) ||| r1) + 0x80) % 65536
        = (r0 &&& 0x7F) * 256 + r1 + 0x80 := by
      rw [count_bits_shift, count_bits r0 r1 hr1, and_0x7F]
      apply Nat.mod_eq_of_lt
      omega
    refine ⟨?_, ?_, ?_⟩
    · simp only [readCount, readByte, h0, h1, hge, bind, Except.bind, pure, Except.pure,
        if_true, e]
    · omega
    · rw [and_0x7F]; omega
  · have hb : ∀ b ∈ [v, v, 0x7F], b < 256 := by
      intro b hb
      simp only [List.mem_cons, List.mem_singleton, List.not_mem_nil, or_false] at hb
      omega
    rw [decompress_rle_eq_spec _ hb 129 1 (le_refl 1) (by decide)]
    have hs : specBands [v, v, 0x7F] 129 1 1 0 0
        = some ([List.replicate 129 v], 3) := by
      simp [specBands, slotCount, specBand, specBandRest, specCount, List.replicate]
    rw [hs]
    simp only [ofSpec, writeBands]
    rw [writeStrided_full _ _ (by simp)]
  · have hb : ∀ b ∈ [v, v, 0x80, 0x00], b < 256 := by
      intro b hb
      simp only [List.mem_cons, List.mem_singleton, List.not_mem_nil, or_false] at hb
      omega
    rw [decompress_rle_eq_spec _ hb 130 1 (le_refl 1) (by decide)]
    have hs : specBands [v, v, 0x80, 0x00] 130 1 1 0 0
        = some ([List.replicate 130 v], 4) := by
      simp [specBands, slotCount, specBand, specBandRest, specCount, List.replicate]
    rw [hs]
    simp only [ofSpec, writeBands]
    rw [writeStrided_full _ _ (by simp)]

/-- The count byte `0x85` followed by `0x03`: the count is `5 * 256 + 3 + 128 = 1411`. -/
theorem readCount_value_witness :
    [9, 0x85, 0x03][1]? = some 0x85 ∧ 0x85 < 256 ∧
    (0x85 < 0x80 → readCount [9, 0x85, 0x03] 1 = .ok (0x85, 1 + 1)) ∧
    (∀ r1, 0x80 ≤ 0x85 → [9, 0x85, 0x03][1 + 1]? = some r1 → r1 < 256 →
      readCount [9, 0x85, 0x03] 1 = .ok ((0x85 &&& 0x7F) * 256 + r1 + 0x80, 1 + 2) ∧
      128 ≤ (0x85 &&& 0x7F) * 256 + r1 + 0x80 ∧ (0x85 &&& 0x7F) * 256 + r1 + 0x80 ≤ 32895) ∧
    (∀ v, v < 256 → decompress_rle [v, v, 0x7F] 129 1 = .ok (List.replicate 129 v)) ∧
    (∀ v, v < 256 → decompress_rle [v, v, 0x80, 0x00] 130 1 = .ok (List.replicate 130 v)) :=
  ⟨by decide, by decide, readCount_value [9, 0x85, 0x03] 1 0x85 (by decide) (by decide)⟩

/-! ## The archive stream -/

theorem read_full {α : Type} (fin : IStream) (cell : Nat → α) (buf : List α) (n : Nat)
    (hg : fin.good = true) (hn : n ≤ fin.rest.length) (hb : buf.length = n) :
    fin.read cell buf n = ((fin.rest.take n).map cell, { rest := fin.rest.drop n, good := true }) := by
  unfold IStream.read
  rw [if_pos hg, if_pos hn, List.drop_eq_nil_of_le (by omega), List.append_nil]

theorem leField_map_some (l : List Nat) (n : Nat) :
    ∀ off, off + n ≤ l.length →
      leField (l.map some) off n = .ok (leNat ((l.drop off).take n)) := by
  induction n with
  | zero => intro off _; simp [leField, leNat]
  | succ n ih =>
    intro off h
    have hlt : off < l.length := by omega
    have hd : l.drop off = l[off] :: l.drop (off + 1) := List.drop_eq_getElem_cons hlt
    have hg : (l.map some).getD off none = some l[off] := by
      rw [List.getD_eq_getElem?_getD, List.getElem?_map, List.getElem?_eq_getElem hlt]
      rfl
    unfold leField
    rw [hg]
    simp only [ih (off + 1) (by omega), hd, List.take_succ_cons, leNat, Except.map]

theorem leField_indeterminate (mem : List (Option Nat)) (n : Nat) :
    ∀ off k, k < n → mem.getD (off + k) none = none →
      leField mem off n = .error .indeterminate := by
  induction n with
  | zero => intro off k hk; omega
  | succ n ih =>
    intro off k hk hnone
    unfold leField
    cases k with
    | zero =>
      rw [Nat.add_zero] at hnone
      rw [hnone]
    | succ k =>
      cases hc : mem.getD off none with
      | none => rfl
      | some b =>
        simp only []
        rw [ih (off + 1) k (by omega) (by rw [← hnone]; congr 1; omega)]
        rfl

/-- What a successful iteration of the loop over the delta entries did. -/
theorem deltaStep_ok (w h c : Nat) (st st1 : MainState) (i : Nat)
    (hok : deltaStep w h c st i = .ok st1) :
    ∃ length bands image image1 last1 pixels,
      leField (st.fin.read some st.entry 5).1 1 4 = .ok length ∧
      leField (st.fin.read some st.entry 5).1 0 1 = .ok bands ∧
      decompress_rle
        ((st.fin.read some st.entry 5).2.read id (List.replicate length 0) length).1
        (mul32 (mul32 w h) c) bands = .ok image ∧
      accumulate image st.last = .ok (image1, last1) ∧
      save_image image1 (toInt w) (toInt h) (toInt c) = .ok pixels ∧
      st1 = { fin := ((st.fin.read some st.entry 5).2.read id
                (List.replicate length 0) length).2,
              entry := (st.fin.read some st.entry 5).1, last := image1,
              emitted := st.emitted ++ [{ index := i, frame := image1, pixels := pixels }] } := by
  unfold deltaStep at hok
  simp only [bind, Except.bind, pure, Except.pure] at hok
  cases h1 : leField (st.fin.read some st.entry 5).1 1 4 with
  | error f => rw [h1] at hok; cases hok
  | ok length =>
    rw [h1] at hok
    simp only [] at hok
    cases h2 : leField (st.fin.read some st.entry 5).1 0 1 with
    | error f => rw [h2] at hok; cases hok
    | ok bands =>
      rw [h2] at hok
      simp only [] at hok
      cases h3 : decompress_rle
          ((st.fin.read some st.entry 5).2.read id (List.replicate length 0) length).1
          (mul32 (mul32 w h) c) bands with
      | error f => rw [h3] at hok; cases hok
      | ok image =>
        rw [h3] at hok
        simp only [] at hok
        cases h4 : accumulate image st.last with
        | error f => rw [h4] at hok; cases hok
        | ok r =>
          obtain ⟨image1, last1⟩ := r
          rw [h4] at hok
          simp only [] at hok
          cases h5 : save_image image1 (toInt w) (toInt h) (toInt c) with
          | error f => rw [h5] at hok; cases hok
          | ok pixels =>
            rw [h5] at hok
            simp only [Except.ok.injEq] at hok
            exact ⟨length, bands, image, image1, last1, pixels, rfl, rfl, h3, h4, h5, hok.symm⟩

theorem take_drop_window {α : Type} (l : List α) (a b c d : Nat) (h : c + d ≤ b) :
    (((l.drop a).take b).drop c).take d = (l.drop (a + c)).take d := by
  rw [List.drop_take, List.take_take, List.drop_drop, Nat.min_eq_left (by omega)]

theorem take_window {α : Type} (l : List α) (b c d : Nat) (h : c + d ≤ b) :
    ((l.take b).drop c).take d = (l.drop c).take d := by
  have := take_drop_window l 0 b c d h
  simpa using this

/-- The first two reads of `main` on a file of at least 42 bytes. -/
theorem read_header (file : List Nat) (h : 42 ≤ file.length) :
    IStream.read { rest := file, good := true } some (List.replicate 22 none) 22
      = ((file.take 22).map some, { rest := file.drop 22, good := true }) ∧
    IStream.read { rest := file.drop 22, good := true } some (List.replicate 20 none) 20
      = (((file.drop 22).take 20).map some, { rest := file.drop 42, good := true }) := by
  constructor
  · exact read_full _ _ _ _ rfl (by simp; omega) (by simp)
  · rw [read_full _ _ _ _ rfl (by simp; omega) (by simp)]
    simp [List.drop_drop]

/-- The base descriptor is indeterminate unless the file has its 42 leading bytes. -/
theorem base_indeterminate (file : List Nat) (h : file.length < 42) :
    leField (IStream.read
        (IStream.read { rest := file, good := true } some (List.replicate 22 none) 22).2
        some (List.replicate 20 none) 20).1 16 4 = .error .indeterminate := by
  apply leField_indeterminate _ 4 16 3 (by decide)
  by_cases h22 : 22 ≤ file.length
  · have e1 : IStream.read { rest := file, good := true } some (List.replicate 22 none) 22
        = ((file.take 22).map some, { rest := file.drop 22, good := true }) :=
      read_full _ _ _ _ rfl h22 (by simp)
    rw [e1]
    have hshort : ¬ 20 ≤ (file.drop 22).length := by simp; omega
    simp only [IStream.read, if_true, hshort, if_false]
    rw [List.getD_eq_getElem?_getD, List.getElem?_append_right (by simp; omega)]
    simp only [List.length_map, List.drop_replicate, List.getElem?_replicate]
    split <;> rfl
  · have hshort : ¬ 22 ≤ file.length := h22
    simp only [IStream.read, if_true, hshort, if_false]
    simp

/-- The frame size `main` computes from the base descriptor of a file. -/
theorem mul32_mul32 (w h c : Nat) : mul32 (mul32 w h) c = (w * h * c) % 4294967296 := by
  unfold mul32
  rw [Nat.mod_mul_mod]

/-- What `main` has done when it reaches the loop over the delta entries. -/
theorem baseFrame_ok (keydb file : List Nat) (w h c : Nat) (hdr : List (Option Nat))
    (st : MainState) (hok : baseFrame keydb file = .ok (w, h, c, hdr, st)) :
    42 ≤ file.length ∧
    hdr = (file.take 22).map some ∧
    w = leNat ((file.drop 30).take 4) ∧
    h = leNat ((file.drop 34).take 4) ∧
    c = leNat ((file.drop 38).take 4) ∧
    ∃ image1 pixels,
      decrypt keydb (IStream.read { rest := file.drop 42, good := true } id
          (List.replicate (mul32 (mul32 w h) c) 0) (mul32 (mul32 w h) c)).1 = .ok image1 ∧
      save_image image1 (toInt w) (toInt h) (toInt c) = .ok pixels ∧
      st = { fin := (IStream.read { rest := file.drop 42, good := true } id
                (List.replicate (mul32 (mul32 w h) c) 0) (mul32 (mul32 w h) c)).2,
             entry := List.replicate 5 none, last := image1,
             emitted := [{ index := 0, frame := image1, pixels := pixels }] } := by
  unfold baseFrame at hok
  simp only [bind, Except.bind, pure, Except.pure] at hok
  have h42 : 42 ≤ file.length := by
    by_contra hlt
    have hi := base_indeterminate file (by omega)
    simp only [hi] at hok
    split at hok
    · cases hok
    · split at hok <;> cases hok
  obtain ⟨e1, e2⟩ := read_header file h42
  rw [e1] at hok
  simp only [] at hok
  rw [e2] at hok
  simp only [] at hok
  rw [leField_map_some _ 4 8 (by simp; omega), leField_map_some _ 4 12 (by simp; omega),
    leField_map_some _ 4 16 (by simp; omega)] at hok
  simp only [] at hok
  rw [take_drop_window file 22 20 8 4 (by decide), take_drop_window file 22 20 12 4 (by decide),
    take_drop_window file 22 20 16 4 (by decide)] at hok
  split at hok
  · cases hok
  · rename_i image1 hd
    split at hok
    · cases hok
    · rename_i pixels hs
      simp only [Except.ok.injEq, Prod.mk.injEq] at hok
      obtain ⟨rfl, rfl, rfl, rfl, rfl⟩ := hok
      exact ⟨h42, rfl, rfl, rfl, rfl, image1, pixels, hd, hs, rfl⟩

/-! ## The pipeline: number and order of the frames -/

theorem deltaLoop_index (w h c : Nat) (is : List Nat) :
    ∀ (st : MainState) (ems : List Emitted),
      deltaLoop w h c is st = (ems, none) →
      ems.map Emitted.index = st.emitted.map Emitted.index ++ is := by
  induction is with
  | nil =>
    intro st ems hl
    simp only [deltaLoop, Prod.mk.injEq, and_true] at hl
    simp [hl]
  | cons i is ih =>
    intro st ems hl
    unfold deltaLoop at hl
    cases hs : deltaStep w h c st i with
    | error f => rw [hs] at hl; simp at hl
    | ok st1 =>
      rw [hs] at hl
      obtain ⟨_, _, _, image1, _, pixels, -, -, -, -, -, rfl⟩ := deltaStep_ok w h c st st1 i hs
      have := ih _ ems hl
      simpa using this

theorem range_max_one (n : Nat) : 0 :: List.range' 1 (n - 1) = List.range (max 1 n) := by
  cases n with
  | zero => rfl
  | succ m =>
    have : max 1 (m + 1) = m + 1 := by omega
    rw [this, List.range_eq_range', Nat.add_sub_cancel]
    rfl

theorem headerCount (file : List Nat) (h : 42 ≤ file.length) :
    leField ((file.take 22).map some) 4 2 = .ok (fileCount file) := by
  rw [leField_map_some _ 2 4 (by simp; omega), take_window file 22 4 2 (by decide)]
  rfl

/-- C10 as amended: when the pipeline completes, the frames it wrote are numbered
`0, 1, ..., max(1, file_count) - 1` in this order: the base frame, which is written
whatever the header declares, and then `file_count - 1` delta frames. -/
theorem main_frame_indices (keydb file : List Nat) (ems : List Emitted)
    (hmain : main keydb file = (ems, none)) :
    ems.map Emitted.index = List.range (max 1 (fileCount file)) ∧
    ems.length = max 1 (fileCount file) := by
  have key : ems.map Emitted.index = List.range (max 1 (fileCount file)) := by
    unfold main at hmain
    cases hb : baseFrame keydb file with
    | error f => rw [hb] at hmain; simp at hmain
    | ok r =>
      obtain ⟨w, h, c, hdr, st⟩ := r
      rw [hb] at hmain
      obtain ⟨h42, rfl, -, -, -, image1, pixels, -, -, rfl⟩ :=
        baseFrame_ok keydb file w h c hdr st hb
      simp only [] at hmain
      rw [headerCount file h42] at hmain
      simp only [] at hmain
      have := deltaLoop_index w h c _ _ ems hmain
      rw [this, ← range_max_one]
      rfl
  refine ⟨key, ?_⟩
  have := congrArg List.length key
  simpa using this

/-- The archive of spec 8 declares two frames, and two frames are written. -/
theorem main_frame_indices_witness :
    main [0xFF] exArchive = (exEmitted, none) ∧
    fileCount exArchive = 2 ∧
    exEmitted.map Emitted.index = List.range (max 1 (fileCount exArchive)) ∧
    exEmitted.length = max 1 (fileCount exArchive) :=
  ⟨by decide, by decide, main_frame_indices [0xFF] exArchive exEmitted (by decide)⟩

/-- C10 as stated fails: the header of `exArchiveZero` declares 0 frames, the pipeline
completes, and one frame is written. -/
theorem main_frame_count_counterexample :
    fileCount exArchiveZero = 0 ∧
    ∃ ems, main [0xFF] exArchiveZero = (ems, none) ∧ ems.length = 1 ∧
      ems.length ≠ fileCount exArchiveZero :=
  ⟨by decide, exEmitted.take 1, by decide, by decide, by decide⟩

/-! ## The pipeline: the frames -/

theorem runLoop_length (b bands size reps : Nat) :
    ∀ (pout : Nat) (out : List Nat), (runLoop b bands size reps pout out).2.length = out.length := by
  induction reps with
  | zero => intro pout out; rfl
  | succ reps ih =>
    intro pout out
    unfold runLoop
    split
    · rw [ih]; simp
    · rfl

theorem bandLoop_length (input : List Nat) (size bands fuel : Nat) :
    ∀ (pin pout last_b : Nat) (out : List Nat) (r : Nat × List Nat),
      bandLoop input size bands fuel pin pout last_b out = .ok r → r.2.length = out.length := by
  induction fuel with
  | zero =>
    intro pin pout last_b out r hr
    unfold bandLoop at hr
    split at hr
    · cases hr
    · cases hr; rfl
  | succ fuel ih =>
    intro pin pout last_b out r hr
    unfold bandLoop at hr
    split at hr
    · simp only [bind, Except.bind] at hr
      split at hr
      · cases hr
      · rename_i b _
        split at hr
        · split at hr
          · cases hr
          · rename_i cnt _
            split at hr
            · split at hr
              · cases hr
              · rename_i b2 _
                rw [ih _ _ _ _ _ hr, List.length_set, runLoop_length, List.length_set]
            · rw [ih _ _ _ _ _ hr, runLoop_length, List.length_set]
        · rw [ih _ _ _ _ _ hr, List.length_set]
    · cases hr; rfl

theorem bandsLoop_length (input : List Nat) (size bands n : Nat) :
    ∀ (i pin : Nat) (out : List Nat) (r : Nat × List Nat),
      bandsLoop input size bands n i pin out = .ok r → r.2.length = out.length := by
  induction n with
  | zero =>
    intro i pin out r hr
    unfold bandsLoop at hr
    cases hr; rfl
  | succ n ih =>
    intro i pin out r hr
    unfold bandsLoop at hr
    simp only [bind, Except.bind] at hr
    split at hr
    · cases hr
    · rename_i init_b _
      split at hr
      · cases hr
      · simp only [pure, Except.pure] at hr
        split at hr
        · cases hr
        · rename_i r1 h1
          rw [ih _ _ _ _ hr, bandLoop_length _ _ _ _ _ _ _ _ _ h1, List.length_set]

/-- A buffer that `decompress_rle` returns has `size_orig` bytes, whatever the payload and
the band count. -/
theorem decompress_rle_length (input : List Nat) (size bands : Nat) (out : List Nat)
    (h : decompress_rle input size bands = .ok out) : out.length = size := by
  unfold decompress_rle decodeBands at h
  cases hb : bandsLoop input size bands bands 0 0 (List.replicate size 0) with
  | error f => rw [hb] at h; cases h
  | ok r =>
    rw [hb] at h
    simp only [Except.map, Except.ok.injEq] at h
    rw [← h, bandsLoop_length _ _ _ _ _ _ _ _ hb, List.length_replicate]

theorem decrypt_length (keydb data out : List Nat) (h : decrypt keydb data = .ok out) :
    out.length = data.length := by
  by_cases hk : keydb = []
  · subst hk
    simp [decrypt] at h
  · obtain ⟨o, h1, h2⟩ := decrypt_getElem? keydb data hk
    rw [h1] at h
    cases h
    exact length_eq_of_getElem?_map _ data _ h2

/-- The accumulation loop on buffers of equal length is the byte-wise sum of spec 4.3. -/
theorem accumulate_eq_addFrames (image last : List Nat) (r : List Nat × List Nat)
    (hlen : image.length = last.length) (h : accumulate image last = .ok r) :
    r.1 = addFrames last image := by
  obtain ⟨out, h1, h2⟩ := accumulate_getElem? image last (by omega)
  rw [h1] at h
  cases h
  apply List.ext_getElem?
  intro i
  simp only [addFrames]
  rw [h2 i, List.getElem?_zipWith]
  by_cases hi : i < image.length
  · rw [List.getElem?_eq_getElem hi, List.getElem?_eq_getElem (by omega : i < last.length),
      List.getD_eq_getElem?_getD, List.getElem?_eq_getElem (by omega : i < last.length)]
    simp [Nat.add_comm]
  · rw [List.getElem?_eq_none (by omega : image.length ≤ i),
      List.getElem?_eq_none (by omega : last.length ≤ i)]
    rfl

theorem leNat_take_one (bytes : List Nat) (h : 1 ≤ bytes.length) :
    leNat (bytes.take 1) = bytes.getD 0 0 := by
  cases bytes with
  | nil => simp at h
  | cons b bs => simp [leNat]

/-- The loop over the delta entries on a stream that holds all entries: the frames written
are the frames of spec 3. -/
theorem deltaLoop_frames (w h c : Nat) (is : List Nat) :
    ∀ (st : MainState) (es : List DeltaEntry) (ems : List Emitted),
      st.fin.good = true → st.entry.length = 5 →
      parseEntries is.length st.fin.rest = some es →
      st.last.length = mul32 (mul32 w h) c →
      deltaLoop w h c is st = (ems, none) →
      ∃ fs, specFramesFrom (mul32 (mul32 w h) c) st.last es = some fs ∧
        ems.map Emitted.frame = st.emitted.map Emitted.frame ++ fs := by
  induction is with
  | nil =>
    intro st es ems _ _ hp _ hl
    simp only [List.length_nil, parseEntries, Option.some.injEq] at hp
    simp only [deltaLoop, Prod.mk.injEq, and_true] at hl
    subst hp hl
    exact ⟨[], rfl, by simp⟩
  | cons i is ih =>
    intro st es ems hg he hp hlast hl
    unfold deltaLoop at hl
    cases hs : deltaStep w h c st i with
    | error f => rw [hs] at hl; simp at hl
    | ok st1 =>
      rw [hs] at hl
      simp only [] at hl
      obtain ⟨length, bands, image, image1, last1, pixels, h1, h2, h3, h4, h5, rfl⟩ :=
        deltaStep_ok w h c st st1 i hs
      simp only [List.length_cons, parseEntries] at hp
      split at hp
      · rename_i hcond
        cases hrest : parseEntries is.length
            (st.fin.rest.drop (5 + leNat ((st.fin.rest.drop 1).take 4))) with
        | none => rw [hrest] at hp; simp at hp
        | some es' =>
          rw [hrest] at hp
          simp only [Option.map_some', Option.some.injEq] at hp
          subst hp
          have hr1 : st.fin.read some st.entry 5
              = ((st.fin.rest.take 5).map some, { rest := st.fin.rest.drop 5, good := true }) :=
            read_full _ _ _ _ hg (by omega) he
          rw [hr1] at h1 h2 h3
          simp only [] at h1 h2 h3
          rw [leField_map_some _ 4 1 (by simp; omega), take_window _ 5 1 4 (by decide)] at h1
          rw [leField_map_some _ 1 0 (by simp; omega), take_window _ 5 0 1 (by decide),
            List.drop_zero, leNat_take_one _ (by omega)] at h2
          simp only [Except.ok.injEq] at h1 h2
          subst h1 h2
          have hr2 : IStream.read { rest := st.fin.rest.drop 5, good := true } id
              (List.replicate (leNat ((st.fin.rest.drop 1).take 4)) 0)
              (leNat ((st.fin.rest.drop 1).take 4))
              = (((st.fin.rest.drop 5).take (leNat ((st.fin.rest.drop 1).take 4))).map id,
                  { rest := (st.fin.rest.drop 5).drop (leNat ((st.fin.rest.drop 1).take 4)),
                    good := true }) :=
            read_full _ _ _ _ rfl (by show _ ≤ (st.fin.rest.drop 5).length
                                      rw [List.length_drop]; omega) (by simp)
          simp only [hr1, hr2, List.map_id, List.drop_drop] at h3 hl
          have hilen := decompress_rle_length _ _ _ _ h3
          have himg := accumulate_eq_addFrames image st.last _ (by omega) h4
          simp only [] at himg
          subst himg
          have hal : (addFrames st.last image).length = mul32 (mul32 w h) c := by
            simp [addFrames, hilen, hlast]
          obtain ⟨fs, hf1, hf2⟩ := ih _ es' ems rfl (by simp; omega) hrest hal hl
          refine ⟨addFrames st.last image :: fs, ?_, ?_⟩
          · simp only [specFramesFrom, h3, hf1, Option.map_some']
          · rw [hf2]
            simp
      · simp at hp

/-- C9 as amended: for an archive that holds all the bytes it declares (spec 6) and whose
`w * h * c` is below `2^32`, and every key, when the pipeline completes the frames it
wrote are the frames of spec 3: frame 0 is `decrypt` of the base payload, and frame `i`
is the byte-wise sum mod 256 of frame `i - 1` and
`decompress_rle(payload_i, w * h * c, bands_i)`, the payload taken as stored. -/
theorem main_frames (keydb file : List Nat) (A : Archive) (ems : List Emitted)
    (hA : parseArchive file = some A) (hsize : A.w * A.h * A.c < 4294967296)
    (hmain : main keydb file = (ems, none)) :
    specFrames keydb A = some (ems.map Emitted.frame) := by
  unfold parseArchive at hA
  simp only [] at hA
  split at hA
  · rename_i hcond
    cases hes : parseEntries (fileCount file - 1)
        (file.drop (42 + leNat ((file.drop 30).take 4) * leNat ((file.drop 34).take 4)
          * leNat ((file.drop 38).take 4))) with
    | none => rw [hes] at hA; simp at hA
    | some es =>
      rw [hes] at hA
      simp only [Option.map_some', Option.some.injEq] at hA
      subst hA
      simp only [] at hsize ⊢
      unfold main at hmain
      cases hb : baseFrame keydb file with
      | error f => rw [hb] at hmain; simp at hmain
      | ok r =>
        obtain ⟨w, h, c, hdr, st⟩ := r
        rw [hb] at hmain
        obtain ⟨h42, rfl, rfl, rfl, rfl, image1, pixels, hd, -, rfl⟩ :=
          baseFrame_ok keydb file w h c hdr st hb
        simp only [] at hmain
        rw [headerCount file h42] at hmain
        simp only [] at hmain
        have hS : mul32 (mul32 (leNat ((file.drop 30).take 4)) (leNat ((file.drop 34).take 4)))
            (leNat ((file.drop 38).take 4))
            = leNat ((file.drop 30).take 4) * leNat ((file.drop 34).take 4)
              * leNat ((file.drop 38).take 4) := by
          rw [mul32_mul32, Nat.mod_eq_of_lt hsize]
        rw [hS] at hd hmain
        have hr : IStream.read { rest := file.drop 42, good := true } id
            (List.replicate (leNat ((file.drop 30).take 4) * leNat ((file.drop 34).take 4)
              * leNat ((file.drop 38).take 4)) 0)
            (leNat ((file.drop 30).take 4) * leNat ((file.drop 34).take 4)
              * leNat ((file.drop 38).take 4))
            = (((file.drop 42).take (leNat ((file.drop 30).take 4)
                  * leNat ((file.drop 34).take 4) * leNat ((file.drop 38).take 4))).map id,
                { rest := (file.drop 42).drop (leNat ((file.drop 30).take 4)
                    * leNat ((file.drop 34).take 4) * leNat ((file.drop 38).take 4)),
                  good := true }) :=
          read_full _ _ _ _ rfl (by show _ ≤ (file.drop 42).length
                                    rw [List.length_drop]; omega) (by simp)
        rw [hr] at hd hmain
        simp only [List.map_id, List.drop_drop] at hd hmain
        have hlen := decrypt_length _ _ _ hd
        have := deltaLoop_frames _ _ _ _ _ es ems rfl (by simp)
          (by simpa using hes)
          (by rw [hS]; show image1.length = _
              rw [hlen, List.length_take, List.length_drop]; omega) hmain
        obtain ⟨fs, hf1, hf2⟩ := this
        rw [hS] at hf1
        simp only [specFrames, hd, hf1, Option.map_some', hf2]
        rfl
  · simp at hA

/-- The archive of spec 8 under the key `[0xFF]`: the frames `[0x10 .. 0x60]` and
`[0x11 .. 0x61]`, the delta payload decoding to six times 1. -/
theorem main_frames_witness :
    parseArchive exArchive = some exParsed ∧
    exParsed.w * exParsed.h * exParsed.c < 4294967296 ∧
    main [0xFF] exArchive = (exEmitted, none) ∧
    specFrames [0xFF] exParsed = some (exEmitted.map Emitted.frame) ∧
    decompress_rle [1, 1, 0, 1, 1, 0, 1, 1, 0] 6 3 = .ok [1, 1, 1, 1, 1, 1] ∧
    exEmitted.map Emitted.frame
      = [[0x10, 0x20, 0x30, 0x40, 0x50, 0x60], [0x11, 0x21, 0x31, 0x41, 0x51, 0x61]] :=
  ⟨by decide, by decide, by decide,
    main_frames [0xFF] exArchive exParsed exEmitted (by decide) (by decide) (by decide),
    by decide, by decide⟩

theorem window_append {α : Type} (P R : List α) (a d : Nat) (h : a + d ≤ P.length) :
    ((P ++ R).drop a).take d = (P.drop a).take d := by
  rw [List.drop_append_of_le_length (by omega), List.take_append_of_le_length (by simp; omega)]

/-- The value of `baseFrame` on a file of at least 42 bytes, with the fields read off the file. -/
theorem baseFrame_eq (keydb file : List Nat) (h42 : 42 ≤ file.length) (w h c : Nat)
    (hw : leNat ((file.drop 30).take 4) = w) (hh : leNat ((file.drop 34).take 4) = h)
    (hc : leNat ((file.drop 38).take 4) = c) (image1 pixels : List Nat)
    (hd : decrypt keydb (IStream.read { rest := file.drop 42, good := true } id
        (List.replicate (mul32 (mul32 w h) c) 0) (mul32 (mul32 w h) c)).1 = .ok image1)
    (hs : save_image image1 (toInt w) (toInt h) (toInt c) = .ok pixels) :
    baseFrame keydb file = .ok (w, h, c, (file.take 22).map some,
      { fin := (IStream.read { rest := file.drop 42, good := true } id
          (List.replicate (mul32 (mul32 w h) c) 0) (mul32 (mul32 w h) c)).2,
        entry := List.replicate 5 none, last := image1,
        emitted := [{ index := 0, frame := image1, pixels := pixels }] }) := by
  obtain ⟨e1, e2⟩ := read_header file h42
  unfold baseFrame
  simp only [bind, Except.bind, pure, Except.pure]
  rw [e1]
  simp only []
  rw [e2]
  simp only []
  rw [leField_map_some _ 4 8 (by simp; omega), leField_map_some _ 4 12 (by simp; omega),
    leField_map_some _ 4 16 (by simp; omega)]
  simp only []
  rw [take_drop_window file 22 20 8 4 (by decide), take_drop_window file 22 20 12 4 (by decide),
    take_drop_window file 22 20 16 4 (by decide)]
  simp only [show 22 + 8 = 30 from rfl, show 22 + 12 = 34 from rfl, show 22 + 16 = 38 from rfl,
    hw, hh, hc, hd, hs]

/-- The value of `main` after a base frame that could be written: the loop over the delta entries. -/
theorem main_of_baseFrame (keydb file : List Nat) (w h c : Nat) (hdr : List (Option Nat))
    (st : MainState) (fc : Nat) (hb : baseFrame keydb file = .ok (w, h, c, hdr, st))
    (hfc : leField hdr 4 2 = .ok fc) :
    main keydb file = deltaLoop w h c (List.range' 1 (fc - 1)) st := by
  unfold main
  rw [hb]
  simp only []
  rw [hfc]

/-- The frames of an archive without delta entries: the decrypted base payload. -/
theorem specFrames_single (keydb : List Nat) (A : Archive) (f0 : List Nat)
    (hd : decrypt keydb A.base = .ok f0) (he : A.entries = []) :
    specFrames keydb A = some [f0] := by
  unfold specFrames
  rw [hd, he]
  rfl

/-- C9 as stated fails on two kinds of archive on which the pipeline completes.  On
`exArchiveShort`, which ends after 3 of its 6 base payload bytes, frame 0 is not `decrypt`
of the stored base payload: the missing bytes are decrypted as zeros.  On `exArchiveWide`,
which holds all it declares, `w * h * c = 2^34` is computed in 32 bits as 0, and frame 0
is empty instead of `decrypt` of the base payload. -/
theorem main_frames_counterexample :
    (∃ ems f0, main [0xFF] exArchiveShort = (ems, none) ∧
      decrypt [0xFF] ((exArchiveShort.drop 42).take (2 * 1 * 3)) = .ok f0 ∧
      (ems.map Emitted.frame).head? ≠ some f0) ∧
    (∃ A, parseArchive exArchiveWide = some A ∧ A.w * A.h * A.c = 17179869184 ∧
      main [0xFF] exArchiveWide = ([exEmptyFrame], none) ∧
      specFrames [0xFF] A ≠ some ([exEmptyFrame].map Emitted.frame)) := by
  refine ⟨⟨exEmittedShort, [0x10, 0x20, 0x30], by decide, by decide, by decide⟩, ?_⟩
  have hlen : exArchiveWide.length = 42 + 17179869184 := by
    simp only [exArchiveWide, List.length_append, List.length_replicate]
    rfl
  have hP : exWidePrefix.length = 42 := by decide
  have hw : leNat ((exArchiveWide.drop 30).take 4) = 2 := by
    rw [exArchiveWide, window_append _ _ 30 4 (by have := hP; omega)]; decide
  have hh : leNat ((exArchiveWide.drop 34).take 4) = 2147483648 := by
    rw [exArchiveWide, window_append _ _ 34 4 (by have := hP; omega)]; decide
  have hc : leNat ((exArchiveWide.drop 38).take 4) = 4 := by
    rw [exArchiveWide, window_append _ _ 38 4 (by have := hP; omega)]; decide
  have hfc : fileCount exArchiveWide = 1 := by
    rw [fileCount, exArchiveWide, window_append _ _ 4 2 (by have := hP; omega)]; decide
  have hdrop : exArchiveWide.drop 42 = List.replicate 17179869184 0 := by
    rw [exArchiveWide, ← hP, List.drop_left]
  obtain ⟨f0, hf0, -⟩ := decrypt_getElem? [0xFF] exParsedWide.base (by decide)
  have hf0len : f0.length = 17179869184 := by
    rw [decrypt_length _ _ _ hf0]
    exact List.length_replicate _ _
  refine ⟨exParsedWide, ?_, by decide, ?_, ?_⟩
  · unfold parseArchive
    simp only [hw, hh, hc, hfc, hdrop]
    rw [if_pos (by omega)]
    have htake : (List.replicate 17179869184 0).take (2 * 2147483648 * 4)
        = List.replicate 17179869184 0 := by
      apply List.take_of_length_le
      rw [List.length_replicate]
    rw [htake]
    rfl
  · have hS : mul32 (mul32 2 2147483648) 4 = 0 := by decide
    have hread : IStream.read { rest := exArchiveWide.drop 42, good := true } id
        (List.replicate 0 0) 0 = ([], { rest := exArchiveWide.drop 42, good := true }) := by
      rw [read_full { rest := exArchiveWide.drop 42, good := true } id (List.replicate 0 0) 0
        rfl (Nat.zero_le _) rfl]
      rfl
    have hb := baseFrame_eq [0xFF] exArchiveWide (by omega) 2 2147483648 4 hw hh hc
      [] [] (by rw [hS, hread]; decide) (by decide)
    rw [main_of_baseFrame _ _ _ _ _ _ _ 1 hb (by rw [headerCount _ (by omega), hfc])]
    rfl
  · rw [specFrames_single _ _ f0 hf0 rfl]
    intro hcontra
    have h1 : f0 = [] := by
      have := Option.some.inj hcontra
      exact (List.cons.inj this).1
    rw [h1] at hf0len
    exact absurd hf0len (by decide)

/-! ## The iteration bound of `bandLoop` is never used up -/

theorem slotCount_anti (size bands p q : Nat) (h : p ≤ q) :
    slotCount size bands q ≤ slotCount size bands p := by
  unfold slotCount
  exact Nat.div_le_div_right (by omega)

theorem readByte_fault (input : List Nat) (pin : Nat) (f : Fault)
    (h : readByte input pin = .error f) : f = .outOfBounds := by
  unfold readByte at h
  cases hi : input[pin]? with
  | none => rw [hi] at h; exact (Except.error.inj h).symm
  | some b => rw [hi] at h; cases h

theorem readCount_fault (input : List Nat) (pin : Nat) (f : Fault)
    (h : readCount input pin = .error f) : f = .outOfBounds := by
  unfold readCount at h
  simp only [bind, Except.bind, pure, Except.pure] at h
  cases h0 : readByte input pin with
  | error g =>
    rw [h0] at h
    have := readByte_fault _ _ _ h0
    subst this
    exact (Except.error.inj h).symm
  | ok r0 =>
    rw [h0] at h
    simp only [] at h
    split at h
    · cases h1 : readByte input (pin + 1) with
      | error g =>
        rw [h1] at h
        have := readByte_fault _ _ _ h1
        subst this
        exact (Except.error.inj h).symm
      | ok r1 => rw [h1] at h; cases h
    · cases h

/-- With at least as many rounds as the band has empty slots, the loop of a band never
stops for lack of rounds. -/
theorem bandLoop_fuel (input : List Nat) (size bands : Nat) (hB : 1 ≤ bands) (fuel : Nat) :
    ∀ (pin pout last_b : Nat) (out : List Nat), slotCount size bands pout ≤ fuel →
      bandLoop input size bands fuel pin pout last_b out ≠ .error .fuel := by
  induction fuel with
  | zero =>
    intro pin pout last_b out hs
    have hp : size ≤ pout := by
      by_contra hc
      have := (slotCount_pos_iff size bands pout hB).mpr (by omega)
      omega
    rw [bandLoop_done _ _ _ _ _ _ _ _ hp]
    exact fun hc => Except.noConfusion hc
  | succ fuel ih =>
    intro pin pout last_b out hs
    by_cases hp : size ≤ pout
    · rw [bandLoop_done _ _ _ _ _ _ _ _ hp]
      exact fun hc => Except.noConfusion hc
    · have hp' : pout < size := by omega
      have hsc := slotCount_succ size bands pout hB hp'
      unfold bandLoop
      rw [if_pos hp']
      simp only [bind, Except.bind]
      cases hr : readByte input pin with
      | error f =>
        have := readByte_fault _ _ _ hr
        subst this
        exact fun hc => Fault.noConfusion (Except.error.inj hc)
      | ok b =>
        simp only []
        split
        · cases hc : readCount input (pin + 1) with
          | error f =>
            have := readCount_fault _ _ _ hc
            subst this
            exact fun hc => Fault.noConfusion (Except.error.inj hc)
          | ok cnt =>
            simp only []
            rw [runLoop_eq _ _ _ hB]
            simp only []
            have hle : slotCount size bands
                (pout + bands + min cnt.1 (slotCount size bands (pout + bands)) * bands)
                ≤ fuel :=
              Nat.le_trans (slotCount_anti size bands _ _ (Nat.le_add_right _ _)) (by omega)
            split
            · cases hr2 : readByte input cnt.2 with
              | error f =>
                have := readByte_fault _ _ _ hr2
                subst this
                exact fun hc => Fault.noConfusion (Except.error.inj hc)
              | ok b2 =>
                simp only []
                exact ih _ _ _ _
                  (Nat.le_trans (slotCount_anti size bands _ _ (Nat.le_add_right _ _)) hle)
            · exact ih _ _ _ _ hle
        · exact ih _ _ _ _ (by omega)

/-- The run never ends with the fault `fuel`: `decompress_rle` is total on the faults of
the source. -/
theorem decompress_rle_fuel (input : List Nat) (size bands : Nat) :
    decompress_rle input size bands ≠ .error .fuel := by
  have key : ∀ (n i pin : Nat) (out : List Nat), 1 ≤ bands →
      bandsLoop input size bands n i pin out ≠ .error .fuel := by
    intro n
    induction n with
    | zero =>
      intro i pin out _
      exact fun hc => Except.noConfusion hc
    | succ n ih =>
      intro i pin out hB
      unfold bandsLoop
      simp only [bind, Except.bind]
      cases hr : readByte input pin with
      | error f =>
        have := readByte_fault _ _ _ hr
        subst this
        exact fun hc => Fault.noConfusion (Except.error.inj hc)
      | ok b =>
        simp only []
        split
        · exact fun hc => Fault.noConfusion (Except.error.inj hc)
        · simp only [pure, Except.pure]
          cases hl : bandLoop input size bands size (pin + 1) (i + bands) b (out.set i b) with
          | error f =>
            intro hc
            simp only [Except.error.injEq] at hc
            subst hc
            exact bandLoop_fuel input size bands hB size _ _ _ _
              (slotCount_le size bands (i + bands) hB (by omega)) hl
          | ok r =>
            simp only []
            exact ih _ _ _ hB
  unfold decompress_rle decodeBands
  intro hc
  cases hb : bandsLoop input size bands bands 0 0 (List.replicate size 0) with
  | error f =>
    rw [hb] at hc
    simp only [Except.map, Except.error.injEq] at hc
    subst hc
    cases bands with
    | zero => simp [bandsLoop] at hb
    | succ m => exact key _ _ _ _ (by omega) hb
  | ok r =>
    rw [hb] at hc
    simp [Except.map] at hc

/-! ## `decrypt` with an empty key -/

/-- C12, the code with an empty key buffer: `decrypt` tests `keylen` nowhere, and its first
computation is the division `data.size() / keylen` of line 113, which is a division by
zero for every data buffer, the empty one included.  That division has no defined result:
the run stops being defined there, which is neither of the two errors the program raises
itself, so the source does not deliver the failure the claim describes. -/
theorem decrypt_empty_key_undefined (data : List Nat) :
    decrypt [] data = .error .divByZero ∧
    decrypt [] data ≠ .error .unexpectedEOF ∧
    decrypt [] data ≠ .error .unsupportedFormat ∧
    decrypt [] [] = .error .divByZero ∧
    decrypt [] [1, 2, 3] = .error .divByZero := by
  have h : decrypt [] data = .error .divByZero := by simp [decrypt]
  refine ⟨h, ?_, ?_, by decide, by decide⟩
  · rw [h]; intro hc; cases Except.error.inj hc
  · rw [h]; intro hc; cases Except.error.inj hc

/-! ## The accumulation loop on buffers of different length -/

/-- C14 as amended: the accumulation loop has no length check.  Whenever the previous
frame is at least as long as the delta it produces a frame: the frame has the length of the
delta, byte `i` is `(prev[i] + delta[i]) mod 256`, and the bytes of the previous frame
beyond the delta are not used. -/
theorem accumulate_longer_prev (prev delta : List Nat) (h : delta.length ≤ prev.length) :
    ∃ out, accumulate delta prev = .ok (out, prev) ∧ out.length = delta.length ∧
      ∀ i, i < delta.length → out.getD i 0 = (prev.getD i 0 + delta.getD i 0) % 256 := by
  obtain ⟨out, h1, h2⟩ := accumulate_getElem? delta prev h
  refine ⟨out, h1, length_eq_of_getElem?_map out delta _ h2, fun i hi => ?_⟩
  rw [List.getD_eq_getElem?_getD, h2 i, List.getD_eq_getElem?_getD delta,
    List.getElem?_eq_getElem hi]
  simp [Nat.add_comm]

/-- A previous frame of three bytes and a delta of two. -/
theorem accumulate_longer_prev_witness :
    [1, 2].length ≤ [255, 255, 4].length ∧
    ∃ out, accumulate [1, 2] [255, 255, 4] = .ok (out, [255, 255, 4]) ∧
      out.length = [1, 2].length ∧
      ∀ i, i < [1, 2].length →
        out.getD i 0 = ([255, 255, 4].getD i 0 + [1, 2].getD i 0) % 256 :=
  ⟨by decide, accumulate_longer_prev [255, 255, 4] [1, 2] (by decide)⟩

/-- C14 as stated fails both ways: a previous frame of three bytes and a delta of two give
the frame `[0, 1]` and no error (the previous frame is cut to the shorter length), and a
previous frame of two bytes under a delta of three is read past its end. -/
theorem accumulate_mismatch_counterexample :
    [255, 255, 4].length ≠ [1, 2].length ∧
    accumulate [1, 2] [255, 255, 4] = .ok ([0, 1], [255, 255, 4]) ∧
    [255, 255].length ≠ [1, 2, 3].length ∧
    accumulate [1, 2, 3] [255, 255] = .error .outOfBounds := by
  decide

/-! ## Bytes after the payload -/

theorem readByte_append (P X : List Nat) (pin b : Nat) (h : readByte P pin = .ok b) :
    readByte (P ++ X) pin = .ok b := by
  unfold readByte at h ⊢
  cases hp : P[pin]? with
  | none => rw [hp] at h; cases h
  | some v =>
    rw [hp] at h
    have hlt : pin < P.length := by
      by_contra hc
      rw [List.getElem?_eq_none (by omega)] at hp
      cases hp
    rw [List.getElem?_append_left hlt, hp]
    exact h

theorem readCount_append (P X : List Nat) (pin : Nat) (r : Nat × Nat)
    (h : readCount P pin = .ok r) : readCount (P ++ X) pin = .ok r := by
  unfold readCount at h ⊢
  simp only [bind, Except.bind, pure, Except.pure] at h ⊢
  cases h0 : readByte P pin with
  | error f => rw [h0] at h; cases h
  | ok r0 =>
    rw [h0] at h
    rw [readByte_append P X pin r0 h0]
    simp only [] at h ⊢
    split
    · rename_i hge
      rw [if_pos hge] at h
      cases h1 : readByte P (pin + 1) with
      | error f => rw [h1] at h; cases h
      | ok r1 =>
        rw [h1] at h
        rw [readByte_append P X (pin + 1) r1 h1]
        exact h
    · rename_i hge
      rw [if_neg hge] at h
      exact h

theorem bandLoop_append (P X : List Nat) (size bands fuel : Nat) :
    ∀ (pin pout last_b : Nat) (out : List Nat) (r : Nat × List Nat),
      bandLoop P size bands fuel pin pout last_b out = .ok r →
      bandLoop (P ++ X) size bands fuel pin pout last_b out = .ok r := by
  induction fuel with
  | zero =>
    intro pin pout last_b out r hr
    unfold bandLoop at hr ⊢
    exact hr
  | succ fuel ih =>
    intro pin pout last_b out r hr
    unfold bandLoop at hr ⊢
    by_cases hp : pout < size
    · rw [if_pos hp] at hr ⊢
      simp only [bind, Except.bind] at hr ⊢
      cases hb : readByte P pin with
      | error f => rw [hb] at hr; cases hr
      | ok b =>
        rw [hb] at hr
        rw [readByte_append P X pin b hb]
        simp only [] at hr ⊢
        by_cases hl : last_b = b
        · rw [if_pos hl] at hr ⊢
          cases hc : readCount P (pin + 1) with
          | error f => rw [hc] at hr; cases hr
          | ok cnt =>
            rw [hc] at hr
            rw [readCount_append P X (pin + 1) cnt hc]
            simp only [] at hr ⊢
            by_cases hq : (runLoop b bands size cnt.1 (pout + bands) (out.set pout b)).1 < size
            · rw [if_pos hq] at hr ⊢
              cases hb2 : readByte P cnt.2 with
              | error f => rw [hb2] at hr; cases hr
              | ok b2 =>
                rw [hb2] at hr
                rw [readByte_append P X cnt.2 b2 hb2]
                exact ih _ _ _ _ _ hr
            · rw [if_neg hq] at hr ⊢
              exact ih _ _ _ _ _ hr
        · rw [if_neg hl] at hr ⊢
          exact ih _ _ _ _ _ hr
    · rw [if_neg hp] at hr ⊢
      exact hr

theorem bandsLoop_append (P X : List Nat) (size bands n : Nat) :
    ∀ (i pin : Nat) (out : List Nat) (r : Nat × List Nat),
      bandsLoop P size bands n i pin out = .ok r →
      bandsLoop (P ++ X) size bands n i pin out = .ok r := by
  induction n with
  | zero =>
    intro i pin out r hr
    unfold bandsLoop at hr ⊢
    exact hr
  | succ n ih =>
    intro i pin out r hr
    unfold bandsLoop at hr ⊢
    simp only [bind, Except.bind] at hr ⊢
    cases hb : readByte P pin with
    | error f => rw [hb] at hr; cases hr
    | ok b =>
      rw [hb] at hr
      rw [readByte_append P X pin b hb]
      simp only [] at hr ⊢
      by_cases hi : i ≥ size
      · rw [if_pos hi] at hr
        cases hr
      · rw [if_neg hi] at hr ⊢
        simp only [pure, Except.pure] at hr ⊢
        cases hl : bandLoop P size bands size (pin + 1) (i + bands) b (out.set i b) with
        | error f => rw [hl] at hr; cases hr
        | ok r1 =>
          rw [hl] at hr
          rw [bandLoop_append P X _ _ _ _ _ _ _ _ hl]
          exact ih _ _ _ _ hr

/-- C20: when decoding the payload `P` succeeds (it read only bytes inside `P`) with the
result `D`, decoding `P` followed by any bytes `X` with the same size and band count
succeeds with the same `D`. -/
theorem decompress_rle_trailing (P X : List Nat) (S B : Nat) (D : List Nat)
    (h : decompress_rle P S B = .ok D) : decompress_rle (P ++ X) S B = .ok D := by
  unfold decompress_rle decodeBands at h ⊢
  cases hb : bandsLoop P S B B 0 0 (List.replicate S 0) with
  | error f => rw [hb] at h; cases h
  | ok r =>
    rw [hb] at h
    rw [bandsLoop_append P X _ _ _ _ _ _ _ hb]
    exact h

/-- The payload of the delta entry of spec 8 followed by three more bytes. -/
theorem decompress_rle_trailing_witness :
    decompress_rle [1, 1, 0, 1, 1, 0, 1, 1, 0] 6 3 = .ok [1, 1, 1, 1, 1, 1] ∧
    decompress_rle ([1, 1, 0, 1, 1, 0, 1, 1, 0] ++ [7, 7, 7]) 6 3 = .ok [1, 1, 1, 1, 1, 1] :=
  ⟨by decide,
    decompress_rle_trailing [1, 1, 0, 1, 1, 0, 1, 1, 0] [7, 7, 7] 6 3 [1, 1, 1, 1, 1, 1]
      (by decide)⟩

/-! ## One repeat signal -/

theorem readCount_offset (input : List Nat) (pin n pin2 : Nat)
    (h : readCount input pin = .ok (n, pin2)) : pin2 = pin + 1 ∨ pin2 = pin + 2 := by
  unfold readCount at h
  simp only [bind, Except.bind, pure, Except.pure] at h
  cases h0 : readByte input pin with
  | error f => rw [h0] at h; cases h
  | ok r0 =>
    rw [h0] at h
    simp only [] at h
    split at h
    · cases h1 : readByte input (pin + 1) with
      | error f => rw [h1] at h; cases h
      | ok r1 =>
        rw [h1] at h
        simp only [Except.ok.injEq, Prod.mk.injEq] at h
        exact Or.inr h.2.symm
    · simp only [Except.ok.injEq, Prod.mk.injEq] at h
      exact Or.inl h.2.symm

theorem bandLoop_succ (input : List Nat) (size bands fuel pin pout last_b : Nat)
    (out : List Nat) :
    bandLoop input size bands (fuel + 1) pin pout last_b out =
      if pout < size then
        (readByte input pin).bind (fun b =>
          if last_b = b then
            (readCount input (pin + 1)).bind (fun cnt =>
              if (runLoop b bands size cnt.1 (pout + bands) (out.set pout b)).1 < size then
                (readByte input cnt.2).bind (fun b2 =>
                  bandLoop input size bands fuel (cnt.2 + 1)
                    ((runLoop b bands size cnt.1 (pout + bands) (out.set pout b)).1 + bands) b2
                    ((runLoop b bands size cnt.1 (pout + bands) (out.set pout b)).2.set
                      (runLoop b bands size cnt.1 (pout + bands) (out.set pout b)).1 b2))
              else
                bandLoop input size bands fuel cnt.2
                  (runLoop b bands size cnt.1 (pout + bands) (out.set pout b)).1 b
                  (runLoop b bands size cnt.1 (pout + bands) (out.set pout b)).2)
          else bandLoop input size bands fuel (pin + 1) (pout + bands) b (out.set pout b))
      else .ok (pin, out) := by
  rw [bandLoop]
  rfl

theorem bandsLoop_succ (input : List Nat) (size bands n i pin : Nat) (out : List Nat) :
    bandsLoop input size bands (n + 1) i pin out =
      (readByte input pin).bind (fun init_b =>
        if i ≥ size then .error .unexpectedEOF
        else
          (bandLoop input size bands size (pin + 1) (i + bands) init_b (out.set i init_b)).bind
            (fun r => bandsLoop input size bands n (i + 1) r.1 r.2)) := by
  rw [bandsLoop]
  simp only [bind, Except.bind, pure, Except.pure]

/-- C17: a round of the band loop that reads the literal `b` equal to the previous value
(a repeat signal) and then the count `n` (ending at input offset `pin2`), while `m` slots
of the band are still empty after the literal.  Exactly `min n m` further copies of `b`
are stored.  The count bytes are consumed whatever `m` is: for `m ≤ n`, also for `m = 0`,
the band ends at `pin2` and no literal is read.  For `n < m` the next read is the literal
at `pin2`.  The next band reads its initial byte where the band stopped.  The payload
`[5, 5, 9, 7, 8]` with two bands and size 4 decodes to `[5, 7, 5, 8]` and uses all five
bytes. -/
theorem bandLoop_repeat (input : List Nat) (size bands fuel pin pout b n pin2 : Nat)
    (out : List Nat) (hB : 1 ≤ bands) (hp : pout < size) (hb : input[pin]? = some b)
    (hc : readCount input (pin + 1) = .ok (n, pin2)) :
    (pin2 = pin + 2 ∨ pin2 = pin + 3) ∧
    runLoop b bands size n (pout + bands) (out.set pout b)
      = (pout + bands + min n (slotCount size bands (pout + bands)) * bands,
          writeStrided bands (out.set pout b) (pout + bands)
            (List.replicate (min n (slotCount size bands (pout + bands))) b)) ∧
    (slotCount size bands (pout + bands) ≤ n →
      bandLoop input size bands (fuel + 1) pin pout b out
        = .ok (pin2, writeStrided bands out pout
            (b :: List.replicate (slotCount size bands (pout + bands)) b))) ∧
    (n < slotCount size bands (pout + bands) →
      bandLoop input size bands (fuel + 1) pin pout b out
        = (readByte input pin2).bind (fun b2 =>
            bandLoop input size bands fuel (pin2 + 1) (pout + bands + n * bands + bands) b2
              ((writeStrided bands out pout (b :: List.replicate n b)).set
                (pout + bands + n * bands) b2))) ∧
    (∀ (k i pin0 init pin1 : Nat) (out0 out1 : List Nat), i < size →
      input[pin0]? = some init →
      bandLoop input size bands size (pin0 + 1) (i + bands) init (out0.set i init)
        = .ok (pin1, out1) →
      bandsLoop input size bands (k + 1) i pin0 out0
        = bandsLoop input size bands k (i + 1) pin1 out1) ∧
    decodeBands [5, 5, 9, 7, 8] 4 2 = .ok (5, [5, 7, 5, 8]) ∧
    decompress_rle [5, 5, 9, 7, 8] 4 2 = .ok [5, 7, 5, 8] := by
  have hrun := runLoop_eq b bands size hB n (pout + bands) (out.set pout b)
  refine ⟨?_, hrun, fun hm => ?_, fun hm => ?_, ?_, by decide, by decide⟩
  · rcases readCount_offset _ _ _ _ hc with h | h <;> omega
  · have hmin : min n (slotCount size bands (pout + bands))
        = slotCount size bands (pout + bands) := by omega
    have hsc := slotCount_add_mul size bands hB (slotCount size bands (pout + bands))
      (pout + bands) (le_refl _)
    have hge : ¬ pout + bands + slotCount size bands (pout + bands) * bands < size := by
      intro hlt
      have := (slotCount_pos_iff size bands _ hB).mpr hlt
      omega
    rw [bandLoop_succ, if_pos hp, readByte_some _ _ _ hb]
    simp only [Except.bind, if_true]
    rw [hc]
    simp only []
    rw [hrun, hmin]
    simp only [hge, if_false]
    rw [bandLoop_done _ _ _ _ _ _ _ _ (by omega)]
    rfl
  · have hmin : min n (slotCount size bands (pout + bands)) = n := by omega
    have hsc := slotCount_add_mul size bands hB n (pout + bands) (by omega)
    have hlt : pout + bands + n * bands < size :=
      (slotCount_pos_iff size bands _ hB).mp (by omega)
    rw [bandLoop_succ, if_pos hp, readByte_some _ _ _ hb]
    simp only [Except.bind, if_true]
    rw [hc]
    simp only []
    rw [hrun, hmin]
    simp only [hlt, if_true, writeStrided]
  · intro k i pin0 init pin1 out0 out1 hi hinit hl
    have hnot : ¬ i ≥ size := by omega
    rw [bandsLoop_succ, readByte_some _ _ _ hinit]
    simp only [Except.bind, hnot, if_false]
    rw [hl]

/-- The payload `[5, 5, 9, 7, 8]`: in band 0 the repeat signal comes when no slot is left,
and the count byte 9 is consumed. -/
theorem bandLoop_repeat_witness :
    1 ≤ 2 ∧ 2 < 4 ∧ [5, 5, 9, 7, 8][1]? = some 5 ∧
    readCount [5, 5, 9, 7, 8] (1 + 1) = .ok (9, 3) ∧
    slotCount 4 2 (2 + 2) = 0 ∧
    bandLoop [5, 5, 9, 7, 8] 4 2 (3 + 1) 1 2 5 [5, 0, 0, 0] = .ok (3, [5, 0, 5, 0]) ∧
    decompress_rle [5, 5, 9, 7, 8] 4 2 = .ok [5, 7, 5, 8] :=
  ⟨by decide, by decide, by decide, by decide, by decide,
    ((bandLoop_repeat [5, 5, 9, 7, 8] 4 2 3 1 2 5 9 3 [5, 0, 0, 0] (by decide) (by decide)
      (by decide) (by decide)).2.2.1 (by decide)),
    by decide⟩

/-! ## More bands than bytes -/

theorem bandLoop_fault (input : List Nat) (size bands fuel : Nat) :
    ∀ (pin pout last_b : Nat) (out : List Nat) (f : Fault),
      bandLoop input size bands fuel pin pout last_b out = .error f →
      f = .outOfBounds ∨ f = .fuel := by
  induction fuel with
  | zero =>
    intro pin pout last_b out f hf
    unfold bandLoop at hf
    split at hf
    · exact Or.inr (Except.error.inj hf).symm
    · cases hf
  | succ fuel ih =>
    intro pin pout last_b out f hf
    rw [bandLoop_succ] at hf
    split at hf
    · cases hb : readByte input pin with
      | error g =>
        rw [hb] at hf
        have := readByte_fault _ _ _ hb
        subst this
        exact Or.inl (Except.error.inj hf).symm
      | ok b =>
        rw [hb] at hf
        simp only [Except.bind] at hf
        split at hf
        · cases hc : readCount input (pin + 1) with
          | error g =>
            rw [hc] at hf
            have := readCount_fault _ _ _ hc
            subst this
            exact Or.inl (Except.error.inj hf).symm
          | ok cnt =>
            rw [hc] at hf
            simp only [] at hf
            split at hf
            · cases hb2 : readByte input cnt.2 with
              | error g =>
                rw [hb2] at hf
                have := readByte_fault _ _ _ hb2
                subst this
                exact Or.inl (Except.error.inj hf).symm
              | ok b2 =>
                rw [hb2] at hf
                exact ih _ _ _ _ _ hf
            · exact ih _ _ _ _ _ hf
        · exact ih _ _ _ _ _ hf
    · cases hf

/-- The loop over the bands when the band count exceeds the size: the band with number
`size` has no first slot, so the loop ends in the throw, unless a read before it left the
payload. -/
theorem bandsLoop_exceed (input : List Nat) (size bands : Nat) (hB : 1 ≤ bands) (n : Nat) :
    ∀ (i pin : Nat) (out : List Nat), i ≤ size → size < i + n →
      bandsLoop input size bands n i pin out = .error .unexpectedEOF ∨
      bandsLoop input size bands n i pin out = .error .outOfBounds := by
  induction n with
  | zero => intro i pin out h1 h2; omega
  | succ n ih =>
    intro i pin out h1 h2
    rw [bandsLoop_succ]
    cases hb : readByte input pin with
    | error g =>
      have := readByte_fault _ _ _ hb
      subst this
      exact Or.inr rfl
    | ok b =>
      simp only [Except.bind]
      by_cases hi : i ≥ size
      · rw [if_pos hi]
        exact Or.inl rfl
      · rw [if_neg hi]
        cases hl : bandLoop input size bands size (pin + 1) (i + bands) b (out.set i b) with
        | error g =>
          simp only []
          rcases bandLoop_fault _ _ _ _ _ _ _ _ _ hl with h | h
          · subst h
            exact Or.inr rfl
          · subst h
            exact absurd hl (bandLoop_fuel input size bands hB size _ _ _ _
              (slotCount_le size bands (i + bands) hB (by omega)))
        | ok r =>
          simp only []
          exact ih _ _ _ (by omega) (by omega)

/-- With more bands than bytes `decompress_rle` never returns a buffer: it ends in the
throw or in a read outside the payload. -/
theorem decompress_rle_exceed (input : List Nat) (S B : Nat) (h : S < B) :
    decompress_rle input S B = .error .unexpectedEOF ∨
    decompress_rle input S B = .error .outOfBounds := by
  unfold decompress_rle decodeBands
  rcases bandsLoop_exceed input S B (by omega) B 0 0 (List.replicate S 0) (Nat.zero_le _)
    (by omega) with h1 | h1
  · rw [h1]; exact Or.inl rfl
  · rw [h1]; exact Or.inr rfl

/-- C18, the code when the band count exceeds the size: the initial byte of a band is read
before the test of the output offset, so on a payload that has no byte left for it the
read is outside the payload and the throw is not reached.  With the byte present the
throw is reached. -/
theorem decompress_rle_exceed_cases :
    decompress_rle [] 0 1 = .error .outOfBounds ∧
    decompress_rle [] 1 2 = .error .outOfBounds ∧
    decompress_rle [7] 1 2 = .error .outOfBounds ∧
    decompress_rle [] 0 1 ≠ .error .unexpectedEOF ∧
    decompress_rle [7] 0 1 = .error .unexpectedEOF ∧
    decompress_rle [7, 8] 1 2 = .error .unexpectedEOF := by
  decide

/-! ## A delta entry without bands -/

/-- Adding the zero buffer to a buffer of bytes of the same length changes nothing. -/
theorem accumulate_zeros (last : List Nat) (hb : ∀ b ∈ last, b < 256) :
    accumulate (List.replicate last.length 0) last = .ok (last, last) := by
  obtain ⟨out, h1, h2⟩ := accumulate_getElem? (List.replicate last.length 0) last (by simp)
  rw [h1]
  have : out = last := by
    apply List.ext_getElem?
    intro i
    rw [h2 i]
    by_cases hi : i < last.length
    · rw [List.getElem?_replicate, if_pos hi, List.getD_eq_getElem?_getD,
        List.getElem?_eq_getElem hi]
      have := hb _ (List.getElem_mem hi)
      simp only [Option.map_some', Option.getD_some, Nat.zero_add, Option.some.injEq]
      exact Nat.mod_eq_of_lt this
    · rw [List.getElem?_replicate, if_neg hi, List.getElem?_eq_none (by omega)]
      rfl
  rw [this]

/-- C19: with band count 0 `decompress_rle` returns `S` zero bytes for every payload, and
the input offset is still 0: no byte is read.  Consequently, when the entry descriptor
read in the loop of `main` declares `bands = 0`, the previous frame has the frame size and
was written, the iteration writes a frame equal to the previous one. -/
theorem bands_zero (w h c : Nat) (st : MainState) (i length : Nat) (pixels : List Nat)
    (hlen : leField (st.fin.read some st.entry 5).1 1 4 = .ok length)
    (hbands : leField (st.fin.read some st.entry 5).1 0 1 = .ok 0)
    (hsize : st.last.length = mul32 (mul32 w h) c)
    (hbytes : ∀ b ∈ st.last, b < 256)
    (hsave : save_image st.last (toInt w) (toInt h) (toInt c) = .ok pixels) :
    (∀ (input : List Nat) (S : Nat),
      decodeBands input S 0 = .ok (0, List.replicate S 0) ∧
      decompress_rle input S 0 = .ok (List.replicate S 0)) ∧
    deltaStep w h c st i = .ok
      { fin := ((st.fin.read some st.entry 5).2.read id (List.replicate length 0) length).2,
        entry := (st.fin.read some st.entry 5).1, last := st.last,
        emitted := st.emitted ++ [{ index := i, frame := st.last, pixels := pixels }] } := by
  refine ⟨fun input S => ⟨rfl, rfl⟩, ?_⟩
  have hz : ∀ input, decompress_rle input (mul32 (mul32 w h) c) 0
      = .ok (List.replicate st.last.length 0) := by
    intro input
    rw [hsize]
    rfl
  unfold deltaStep
  simp only [bind, Except.bind, pure, Except.pure, hlen, hbands, hz,
    accumulate_zeros st.last hbytes, hsave]

/-- The state of `main` on `exArchiveStill` before the loop: the entry `[0, 0, 0, 0, 0]`
gives a second frame equal to the first, and `main` writes the same frame twice. -/
theorem bands_zero_witness :
    leField (exStateStill.fin.read some exStateStill.entry 5).1 1 4 = .ok 0 ∧
    leField (exStateStill.fin.read some exStateStill.entry 5).1 0 1 = .ok 0 ∧
    exStateStill.last.length = mul32 (mul32 2 1) 3 ∧
    (∀ b ∈ exStateStill.last, b < 256) ∧
    save_image exStateStill.last (toInt 2) (toInt 1) (toInt 3) = .ok exFrame0.pixels ∧
    ((deltaStep 2 1 3 exStateStill 1).map (fun s => s.emitted.map Emitted.frame))
      = .ok [exFrame0.frame, exFrame0.frame] ∧
    (main [0xFF] exArchiveStill).1.map Emitted.frame = [exFrame0.frame, exFrame0.frame] :=
  ⟨by decide, by decide, by decide, by decide, by decide,
    by rw [(bands_zero 2 1 3 exStateStill 1 0 exFrame0.pixels (by decide) (by decide)
      (by decide) (by decide) (by decide)).2]; rfl,
    by decide⟩

/-! ## `flip3` and `flip4`: the loops -/

theorem flip3_eq (data : List Nat) (w h : Int) :
    flip3 data w h = (checkedInt (w * 3)).bind fun stride =>
      (List.range h.toNat).foldlM (row3 data w h stride) (List.replicate data.length 0) := rfl

theorem flip4_eq (data : List Nat) (w h : Int) :
    flip4 data w h = (checkedInt (w * 4)).bind fun stride =>
      (List.range h.toNat).foldlM (row4 data w h stride) (List.replicate data.length 0) := rfl

theorem foldlM_range_succ {β : Type} (f : β → Nat → Except Fault β) (n : Nat) (b : β) :
    (List.range (n + 1)).foldlM f b = ((List.range n).foldlM f b).bind (fun b1 => f b1 n) := by
  rw [List.range_succ, List.foldlM_append]
  cases (List.range n).foldlM f b with
  | error e => rfl
  | ok b1 =>
    simp only [bind, Except.bind, List.foldlM_cons, List.foldlM_nil, pure, Except.pure]
    cases f b1 n <;> rfl

/-- The pixel loop over `W` pixels of one row. -/
theorem pixels_loop (c : Nat) (data : List Nat) (I O : Nat)
    (f : List Nat → Nat → Except Fault (List Nat)) (hf : PixelOk c data I O f) (W : Nat) :
    ∀ buf : List Nat, O + c * W ≤ buf.length → I + c * W ≤ data.length →
      ∃ buf', (List.range W).foldlM f buf = .ok buf' ∧ buf'.length = buf.length ∧
        (∀ p k, p < W → k < c →
          buf'[O + c * p + k]? = some (data.getD (I + c * p + (c - 1 - k)) 0)) ∧
        (∀ idx, idx < O ∨ O + c * W ≤ idx → buf'[idx]? = buf[idx]?) := by
  induction W with
  | zero =>
    intro buf _ _
    exact ⟨buf, rfl, rfl, fun p k hp _ => absurd hp (Nat.not_lt_zero p), fun _ _ => rfl⟩
  | succ W ih =>
    intro buf hO hI
    rw [Nat.mul_succ] at hO hI
    obtain ⟨buf1, e1, l1, w1, o1⟩ := ih buf (by omega) (by omega)
    obtain ⟨buf2, e2, l2, w2, o2⟩ := hf W buf1 (by omega) (by omega)
    refine ⟨buf2, ?_, by omega, ?_, ?_⟩
    · rw [foldlM_range_succ, e1]
      exact e2
    · intro p k hp hk
      by_cases hpW : p = W
      · subst hpW
        exact w2 k hk
      · have hlt : p < W := by omega
        have hm : c * (p + 1) ≤ c * W := Nat.mul_le_mul_left c hlt
        rw [Nat.mul_succ] at hm
        rw [o2 _ (Or.inl (by omega))]
        exact w1 p k hlt hk
    · intro idx hidx
      rw [Nat.mul_succ] at hidx
      rw [o2 _ (by omega), o1 _ (by omega)]

/-- The row loop over `R` rows of `W` pixels of `c` bytes, on buffers of `N` bytes: row `r`
of the result is row `H - 1 - r` of the input with every pixel reversed. -/
theorem rows_loop (c W H N : Nat) (data : List Nat)
    (g : List Nat → Nat → Except Fault (List Nat))
    (hg : ∀ (r : Nat) (buf : List Nat), r < H → buf.length = N →
      ∃ buf', g buf r = .ok buf' ∧ buf'.length = N ∧
        (∀ p k, p < W → k < c →
          buf'[r * (c * W) + c * p + k]?
            = some (data.getD ((H - 1 - r) * (c * W) + c * p + (c - 1 - k)) 0)) ∧
        (∀ idx, idx < r * (c * W) ∨ (r + 1) * (c * W) ≤ idx → buf'[idx]? = buf[idx]?))
    (R : Nat) :
    ∀ buf0 : List Nat, R ≤ H → buf0.length = N →
      ∃ buf', (List.range R).foldlM g buf0 = .ok buf' ∧ buf'.length = N ∧
        ∀ r p k, r < R → p < W → k < c →
          buf'[r * (c * W) + c * p + k]?
            = some (data.getD ((H - 1 - r) * (c * W) + c * p + (c - 1 - k)) 0) := by
  induction R with
  | zero =>
    intro buf0 _ h0
    exact ⟨buf0, rfl, h0, fun r p k hr _ _ => absurd hr (Nat.not_lt_zero r)⟩
  | succ R ih =>
    intro buf0 hR h0
    obtain ⟨buf1, e1, l1, w1⟩ := ih buf0 (by omega) h0
    obtain ⟨buf2, e2, l2, w2, o2⟩ := hg R buf1 (by omega) l1
    refine ⟨buf2, ?_, l2, ?_⟩
    · rw [foldlM_range_succ, e1]
      exact e2
    · intro r p k hr hp hk
      by_cases hrR : r = R
      · subst hrR
        exact w2 p k hp hk
      · have hlt : r < R := by omega
        have hm : c * (p + 1) ≤ c * W := Nat.mul_le_mul_left c hp
        rw [Nat.mul_succ] at hm
        have hr2 : (r + 1) * (c * W) ≤ R * (c * W) := Nat.mul_le_mul_right _ hlt
        rw [Nat.succ_mul] at hr2
        rw [o2 _ (Or.inl (by omega))]
        exact w1 r p k hlt hp hk

theorem readAt_ok (data : List Nat) (i : Nat) (h : i < data.length) :
    readAt data i = .ok (data.getD i 0) := by
  simp [readAt, List.getD, List.getElem?_eq_getElem h]

theorem writeAt_ok (buf : List Nat) (i b : Nat) (h : i < buf.length) :
    writeAt buf i b = .ok (buf.set i b) := by
  simp [writeAt, h]

theorem getElem?_set_at (l : List Nat) (i j a : Nat) (hj : j = i) (h : i < l.length) :
    (l.set i a)[j]? = some a := by
  subst hj
  simp [List.getElem?_set, h]

theorem getElem?_set_off (l : List Nat) (i j a : Nat) (h : j ≠ i) :
    (l.set i a)[j]? = l[j]? := by
  simp [List.getElem?_set, Ne.symm h]

theorem pixel3_ok (data : List Nat) (I O : Nat) : PixelOk 3 data I O (pixel3 data I O) := by
  intro p buf hO hI
  refine ⟨((buf.set (O + 3 * p) (data.getD (I + 3 * p + 2) 0)).set (O + 3 * p + 1)
      (data.getD (I + 3 * p + 1) 0)).set (O + 3 * p + 2) (data.getD (I + 3 * p) 0), ?_, ?_, ?_, ?_⟩
  · simp only [pixel3]
    rw [readAt_ok data _ (by omega), Except.bind, writeAt_ok _ _ _ (by omega), Except.bind,
      readAt_ok data _ (by omega), Except.bind,
      writeAt_ok _ _ _ (by simp only [List.length_set]; omega), Except.bind,
      readAt_ok data _ (by omega), Except.bind,
      writeAt_ok _ _ _ (by simp only [List.length_set]; omega)]
  · simp only [List.length_set]
  · intro k hk
    have hk3 : k = 0 ∨ k = 1 ∨ k = 2 := by omega
    rcases hk3 with rfl | rfl | rfl
    · rw [getElem?_set_off _ _ _ _ (by omega), getElem?_set_off _ _ _ _ (by omega),
        getElem?_set_at _ _ _ _ (by omega) (by omega)]
    · rw [getElem?_set_off _ _ _ _ (by omega), getElem?_set_at _ _ _ _ (by omega) (by simp only [List.length_set]; omega)]
    · rw [getElem?_set_at _ _ _ _ (by omega) (by simp only [List.length_set]; omega)]
      rfl
  · intro idx hidx
    rw [getElem?_set_off _ _ _ _ (by omega), getElem?_set_off _ _ _ _ (by omega),
      getElem?_set_off _ _ _ _ (by omega)]

theorem pixel4_ok (data : List Nat) (I O : Nat) : PixelOk 4 data I O (pixel4 data I O) := by
  intro p buf hO hI
  refine ⟨(((buf.set (O + 4 * p) (data.getD (I + 4 * p + 3) 0)).set (O + 4 * p + 1)
      (data.getD (I + 4 * p + 2) 0)).set (O + 4 * p + 2) (data.getD (I + 4 * p + 1) 0)).set
      (O + 4 * p + 3) (data.getD (I + 4 * p) 0), ?_, ?_, ?_, ?_⟩
  · simp only [pixel4]
    rw [readAt_ok data _ (by omega), Except.bind, writeAt_ok _ _ _ (by omega), Except.bind,
      readAt_ok data _ (by omega), Except.bind,
      writeAt_ok _ _ _ (by simp only [List.length_set]; omega), Except.bind,
      readAt_ok data _ (by omega), Except.bind,
      writeAt_ok _ _ _ (by simp only [List.length_set]; omega), Except.bind,
      readAt_ok data _ (by omega), Except.bind,
      writeAt_ok _ _ _ (by simp only [List.length_set]; omega)]
  · simp only [List.length_set]
  · intro k hk
    have hk4 : k = 0 ∨ k = 1 ∨ k = 2 ∨ k = 3 := by omega
    rcases hk4 with rfl | rfl | rfl | rfl
    · rw [getElem?_set_off _ _ _ _ (by omega), getElem?_set_off _ _ _ _ (by omega),
        getElem?_set_off _ _ _ _ (by omega), getElem?_set_at _ _ _ _ (by omega) (by omega)]
    · rw [getElem?_set_off _ _ _ _ (by omega), getElem?_set_off _ _ _ _ (by omega),
        getElem?_set_at _ _ _ _ (by omega) (by simp only [List.length_set]; omega)]
    · rw [getElem?_set_off _ _ _ _ (by omega),
        getElem?_set_at _ _ _ _ (by omega) (by simp only [List.length_set]; omega)]
    · rw [getElem?_set_at _ _ _ _ (by omega) (by simp only [List.length_set]; omega)]
      rfl
  · intro idx hidx
    rw [getElem?_set_off _ _ _ _ (by omega), getElem?_set_off _ _ _ _ (by omega),
      getElem?_set_off _ _ _ _ (by omega), getElem?_set_off _ _ _ _ (by omega)]

theorem checkedInt_nat (n : Nat) (h : n ≤ 2147483647) : checkedInt (n : Int) = .ok (n : Int) := by
  have h1 : (-2147483648 : Int) ≤ (n : Int) ∧ (n : Int) ≤ 2147483647 := by omega
  simp only [checkedInt, h1, and_self, if_true]

/-- One row of a flip of pixels of `c` bytes: the offsets stay in the range of `int`, and
the pixel loop fills output row `r` from input row `H - 1 - r`. -/
theorem row_ok (c W H : Nat) (data : List Nat)
    (pix : Nat → Nat → List Nat → Nat → Except Fault (List Nat))
    (hpix : ∀ I O, PixelOk c data I O (pix I O))
    (stride : Int) (hs : stride = ((c * W : Nat) : Int))
    (hdata : data.length = H * (c * W)) (hrow : (H - 1) * (c * W) ≤ 2147483647)
    (r : Nat) (buf : List Nat) (hr : r < H) (hlen : buf.length = H * (c * W)) :
    ∃ buf', ((checkedInt (((H : Int) - (r : Int) - 1) * stride)).bind fun inOff =>
        (checkedInt ((r : Int) * stride)).bind fun outOff =>
        (List.range W).foldlM (pix inOff.toNat outOff.toNat) buf) = .ok buf' ∧
      buf'.length = H * (c * W) ∧
      (∀ p k, p < W → k < c →
        buf'[r * (c * W) + c * p + k]?
          = some (data.getD ((H - 1 - r) * (c * W) + c * p + (c - 1 - k)) 0)) ∧
      (∀ idx, idx < r * (c * W) ∨ (r + 1) * (c * W) ≤ idx → buf'[idx]? = buf[idx]?) := by
  have e1 : ((H : Int) - (r : Int) - 1) * stride = (((H - 1 - r) * (c * W) : Nat) : Int) := by
    have e : ((H : Int) - (r : Int) - 1) = ((H - 1 - r : Nat) : Int) := by omega
    rw [hs, e, Nat.cast_mul (H - 1 - r) (c * W)]
  have e2 : (r : Int) * stride = ((r * (c * W) : Nat) : Int) := by
    rw [hs, Nat.cast_mul r (c * W)]
  have b1 : (H - 1 - r) * (c * W) ≤ (H - 1) * (c * W) := Nat.mul_le_mul_right _ (by omega)
  have b2 : r * (c * W) ≤ (H - 1) * (c * W) := Nat.mul_le_mul_right _ (by omega)
  have b3 : (r + 1) * (c * W) ≤ H * (c * W) := Nat.mul_le_mul_right _ hr
  have b4 : (H - 1 - r + 1) * (c * W) ≤ H * (c * W) := Nat.mul_le_mul_right _ (by omega)
  rw [Nat.succ_mul] at b3 b4
  rw [e1, e2, checkedInt_nat _ (by omega), Except.bind, checkedInt_nat _ (by omega), Except.bind]
  simp only [Int.toNat_ofNat]
  obtain ⟨buf1, e, l, w, o⟩ := pixels_loop c data ((H - 1 - r) * (c * W)) (r * (c * W))
    (pix ((H - 1 - r) * (c * W)) (r * (c * W))) (hpix _ _) W buf (by omega) (by omega)
  refine ⟨buf1, e, by omega, w, ?_⟩
  intro idx hidx
  rw [Nat.succ_mul] at hidx
  exact o idx hidx

/-- A whole flip of `H` rows of `W` pixels of `c` bytes. -/
theorem flip_ok (c W H : Nat) (data : List Nat)
    (pix : Nat → Nat → List Nat → Nat → Except Fault (List Nat))
    (hpix : ∀ I O, PixelOk c data I O (pix I O))
    (hdata : data.length = H * (c * W)) (hstride : c * W ≤ 2147483647)
    (hrow : (H - 1) * (c * W) ≤ 2147483647) :
    ∃ out, ((checkedInt ((W : Int) * (c : Int))).bind fun stride =>
        (List.range H).foldlM (fun (buf : List Nat) (row : Nat) =>
          (checkedInt (((H : Int) - (row : Int) - 1) * stride)).bind fun inOff =>
          (checkedInt ((row : Int) * stride)).bind fun outOff =>
          (List.range W).foldlM (pix inOff.toNat outOff.toNat) buf)
          (List.replicate data.length 0)) = .ok out ∧
      out.length = H * (c * W) ∧
      ∀ r p k, r < H → p < W → k < c →
        out[r * (c * W) + c * p + k]?
          = some (data.getD ((H - 1 - r) * (c * W) + c * p + (c - 1 - k)) 0) := by
  have es : (W : Int) * (c : Int) = ((c * W : Nat) : Int) := by
    rw [Nat.cast_mul c W, Int.mul_comm]
  rw [es, checkedInt_nat _ hstride, Except.bind]
  exact rows_loop c W H (H * (c * W)) data _
    (fun r buf hr hlen => row_ok c W H data pix hpix _ rfl hdata hrow r buf hr hlen)
    H (List.replicate data.length 0) (Nat.le_refl H) (by rw [List.length_replicate, hdata])

/-! ## C15, C16: what `flip3` and `flip4` compute -/

theorem flip3_overflow (data : List Nat) (w h : Int) (hw : 2147483647 < w * 3) :
    flip3 data w h = .error .intOverflow := by
  have h1 : ¬ ((-2147483648 : Int) ≤ w * 3 ∧ w * 3 ≤ 2147483647) := by omega
  rw [flip3_eq]
  simp only [checkedInt, h1, if_false, Except.bind]

theorem flip4_overflow (data : List Nat) (w h : Int) (hw : 2147483647 < w * 4) :
    flip4 data w h = .error .intOverflow := by
  have h1 : ¬ ((-2147483648 : Int) ≤ w * 4 ∧ w * 4 ≤ 2147483647) := by omega
  rw [flip4_eq]
  simp only [checkedInt, h1, if_false, Except.bind]

/-- C15 as amended: for a width `W` and a height `H` of type `int` whose row stride
`W * 3` and last row offset `(H - 1) * (W * 3)` are in the range of `int`, and every buffer
`data` of `W * H * 3` bytes, `flip3(data, W, H)` returns a buffer of `W * H * 3` bytes with
`out[(r*W + p)*3 + k] = data[((H-1-r)*W + p)*3 + (2-k)]` for all `r < H`, `p < W`, `k < 3`:
the rows are mirrored vertically and the three bytes of every pixel are reversed. -/
theorem flip3_mirror (W H : Nat) (data : List Nat)
    (hdata : data.length = W * H * 3)
    (_hH : H ≤ 2147483647)
    (hstride : W * 3 ≤ 2147483647)
    (hrow : (H - 1) * (W * 3) ≤ 2147483647) :
    ∃ out, flip3 data (W : Int) (H : Int) = .ok out ∧ out.length = W * H * 3 ∧
      ∀ r p k, r < H → p < W → k < 3 →
        out.getD ((r * W + p) * 3 + k) 0 = data.getD (((H - 1 - r) * W + p) * 3 + (2 - k)) 0 := by
  have e3 : 3 * W = W * 3 := Nat.mul_comm 3 W
  obtain ⟨out, e, l, w⟩ := flip_ok 3 W H data (pixel3 data) (pixel3_ok data)
    (by rw [hdata, e3, Nat.mul_assoc, Nat.mul_left_comm])
    (by omega) (by rw [e3]; exact hrow)
  refine ⟨out, e, by rw [l, e3, Nat.mul_left_comm, Nat.mul_assoc], ?_⟩
  intro r p k hr hp hk
  have i1 : (r * W + p) * 3 + k = r * (3 * W) + 3 * p + k := by ring
  have i2 : ((H - 1 - r) * W + p) * 3 + (2 - k) = (H - 1 - r) * (3 * W) + 3 * p + (3 - 1 - k) := by
    have : 2 - k = 3 - 1 - k := rfl
    rw [this]; ring
  rw [i1, i2, List.getD_eq_getElem?_getD, w r p k hr hp hk]
  rfl

theorem flip3_mirror_witness :
    [1, 2, 3, 4, 5, 6, 7, 8, 9, 10, 11, 12].length = 2 * 2 * 3 ∧
    ∃ out, flip3 [1, 2, 3, 4, 5, 6, 7, 8, 9, 10, 11, 12] ((2 : Nat) : Int) ((2 : Nat) : Int)
        = .ok out ∧ out.length = 2 * 2 * 3 ∧
      ∀ r p k, r < 2 → p < 2 → k < 3 →
        out.getD ((r * 2 + p) * 3 + k) 0
          = [1, 2, 3, 4, 5, 6, 7, 8, 9, 10, 11, 12].getD (((2 - 1 - r) * 2 + p) * 3 + (2 - k)) 0 :=
  ⟨by decide, flip3_mirror 2 2 [1, 2, 3, 4, 5, 6, 7, 8, 9, 10, 11, 12] (by decide) (by decide)
    (by decide) (by decide)⟩

/-- C15 as stated fails where the row stride leaves the range of `int`: with
`w = 1073741824` the product `w * 3` overflows, for `h = 0` and the empty buffer and for
`h = 1` and a buffer of `w * 1 * 3` bytes, and no buffer is returned. -/
theorem flip3_stride_counterexample :
    ([] : List Nat).length = 1073741824 * 0 * 3 ∧
    flip3 [] 1073741824 0 = .error .intOverflow ∧
    (List.replicate 3221225472 0).length = 1073741824 * 1 * 3 ∧
    flip3 (List.replicate 3221225472 0) 1073741824 1 = .error .intOverflow :=
  ⟨rfl, flip3_overflow _ _ _ (by decide), List.length_replicate _ _,
    flip3_overflow _ _ _ (by decide)⟩

/-- C16 as amended: for a width `W` and a height `H` of type `int` whose row stride
`W * 4` and last row offset `(H - 1) * (W * 4)` are in the range of `int`, and every buffer
`data` of `W * H * 4` bytes, `flip4(data, W, H)` returns a buffer of `W * H * 4` bytes with
`out[(r*W + p)*4 + k] = data[((H-1-r)*W + p)*4 + (3-k)]` for all `r < H`, `p < W`, `k < 4`:
the rows are mirrored vertically and all four bytes of every pixel are reversed, so
`out[0] = in[3]`, `out[1] = in[2]`, `out[2] = in[1]`, `out[3] = in[0]`. -/
theorem flip4_mirror (W H : Nat) (data : List Nat)
    (hdata : data.length = W * H * 4)
    (_hH : H ≤ 2147483647)
    (hstride : W * 4 ≤ 2147483647)
    (hrow : (H - 1) * (W * 4) ≤ 2147483647) :
    ∃ out, flip4 data (W : Int) (H : Int) = .ok out ∧ out.length = W * H * 4 ∧
      ∀ r p k, r < H → p < W → k < 4 →
        out.getD ((r * W + p) * 4 + k) 0 = data.getD (((H - 1 - r) * W + p) * 4 + (3 - k)) 0 := by
  have e4 : 4 * W = W * 4 := Nat.mul_comm 4 W
  obtain ⟨out, e, l, w⟩ := flip_ok 4 W H data (pixel4 data) (pixel4_ok data)
    (by rw [hdata, e4, Nat.mul_assoc, Nat.mul_left_comm])
    (by omega) (by rw [e4]; exact hrow)
  refine ⟨out, e, by rw [l, e4, Nat.mul_left_comm, Nat.mul_assoc], ?_⟩
  intro r p k hr hp hk
  have i1 : (r * W + p) * 4 + k = r * (4 * W) + 4 * p + k := by ring
  have i2 : ((H - 1 - r) * W + p) * 4 + (3 - k) = (H - 1 - r) * (4 * W) + 4 * p + (4 - 1 - k) := by
    have : 3 - k = 4 - 1 - k := rfl
    rw [this]; ring
  rw [i1, i2, List.getD_eq_getElem?_getD, w r p k hr hp hk]
  rfl

theorem flip4_mirror_witness :
    [1, 2, 3, 4, 5, 6, 7, 8].length = 1 * 2 * 4 ∧
    ∃ out, flip4 [1, 2, 3, 4, 5, 6, 7, 8] ((1 : Nat) : Int) ((2 : Nat) : Int) = .ok out ∧
      out.length = 1 * 2 * 4 ∧
      ∀ r p k, r < 2 → p < 1 → k < 4 →
        out.getD ((r * 1 + p) * 4 + k) 0
          = [1, 2, 3, 4, 5, 6, 7, 8].getD (((2 - 1 - r) * 1 + p) * 4 + (3 - k)) 0 :=
  ⟨by decide, flip4_mirror 1 2 [1, 2, 3, 4, 5, 6, 7, 8] (by decide) (by decide) (by decide)
    (by decide)⟩

/-- C16 as stated fails on the one-pixel frame `[1, 2, 3, 4]` (B = 1, G = 2, R = 3, A = 4):
`flip4` returns `[4, 3, 2, 1]`, so `out[0]` is `in[3]` and not `in[2]`, `out[2]` is `in[1]`
and not `in[0]`, and the alpha byte `in[3]` lands in `out[0]`, not in `out[3]`; the frame
the claim describes would be `[3, 2, 1, 4]`. -/
theorem flip4_alpha_counterexample :
    [1, 2, 3, 4].length = 1 * 1 * 4 ∧
    flip4 [1, 2, 3, 4] 1 1 = .ok [4, 3, 2, 1] ∧
    flip4 [1, 2, 3, 4] 1 1 ≠ .ok [3, 2, 1, 4] ∧
    [4, 3, 2, 1].getD 0 0 ≠ [1, 2, 3, 4].getD 2 0 ∧
    [4, 3, 2, 1].getD 2 0 ≠ [1, 2, 3, 4].getD 0 0 ∧
    [4, 3, 2, 1].getD 3 0 ≠ [1, 2, 3, 4].getD 3 0 := by decide

/-! ## C13: `save_image` -/

theorem read_length (fin : IStream) (S : Nat) :
    (fin.read id (List.replicate S 0) S).1.length = S := by
  unfold IStream.read
  split
  · split
    · simp only [List.length_append, List.length_map, List.length_take, List.length_drop,
        List.length_replicate]
      omega
    · simp only [List.length_append, List.length_map, List.length_drop, List.length_replicate]
      omega
  · exact List.length_replicate _ _

/-- The loop over the delta entries keeps the size of the frames: every frame has the size
`S` of `last`, and each frame is the one before plus a decoded delta of that size. -/
theorem deltaLoop_sizes (w h c : Nat) (is : List Nat) :
    ∀ (st : MainState) (ems : List Emitted) (r : Option Fault),
      deltaLoop w h c is st = (ems, r) →
      st.last.length = mul32 (mul32 w h) c →
      (∀ e ∈ st.emitted, e.frame.length = mul32 (mul32 w h) c) →
      (∀ a, st.emitted[st.emitted.length - 1]? = some a → a.frame = st.last) →
      (∀ n a b, st.emitted[n]? = some a → st.emitted[n + 1]? = some b →
        AddsDelta (mul32 (mul32 w h) c) a.frame b.frame) →
      (∀ e ∈ ems, e.frame.length = mul32 (mul32 w h) c) ∧
      (∀ n a b, ems[n]? = some a → ems[n + 1]? = some b →
        AddsDelta (mul32 (mul32 w h) c) a.frame b.frame) := by
  induction is with
  | nil =>
    intro st ems r hl hlast hall _ hchain
    simp only [deltaLoop, Prod.mk.injEq] at hl
    rw [← hl.1]
    exact ⟨hall, hchain⟩
  | cons i is ih =>
    intro st ems r hl hlast hall hend hchain
    unfold deltaLoop at hl
    cases hs : deltaStep w h c st i with
    | error f =>
      rw [hs] at hl
      simp only [Prod.mk.injEq] at hl
      rw [← hl.1]
      exact ⟨hall, hchain⟩
    | ok st1 =>
      rw [hs] at hl
      obtain ⟨length, bands, image, image1, last1, pixels, -, -, hdec, hacc, -, rfl⟩ :=
        deltaStep_ok w h c st st1 i hs
      have himg : image.length = mul32 (mul32 w h) c := decompress_rle_length _ _ _ _ hdec
      obtain ⟨out, hout, hget⟩ := accumulate_getElem? image st.last (by omega)
      have houtlen : out.length = image.length := length_eq_of_getElem?_map out image _ hget
      rw [hout] at hacc
      have hinj := Except.ok.inj hacc
      have h1 : out = image1 := (Prod.mk.inj hinj).1
      subst h1
      refine ih _ ems r hl (by simp only; omega) ?_ ?_ ?_
      · intro e he
        simp only [List.mem_append, List.mem_singleton] at he
        rcases he with he | he
        · exact hall e he
        · rw [he]
          simp only
          omega
      · intro a ha
        simp only [List.length_append, List.length_singleton, Nat.add_sub_cancel] at ha
        rw [List.getElem?_append_right (Nat.le_refl _), Nat.sub_self] at ha
        simp only [List.getElem?_cons_zero, Option.some.injEq] at ha
        rw [← ha]
      · intro n a b ha hb
        by_cases hn : n + 1 < st.emitted.length
        · rw [List.getElem?_append_left (by omega)] at ha
          rw [List.getElem?_append_left hn] at hb
          exact hchain n a b ha hb
        · by_cases hn2 : n + 1 = st.emitted.length
          · rw [List.getElem?_append_left (by omega)] at ha
            rw [List.getElem?_append_right (by omega), hn2, Nat.sub_self] at hb
            simp only [List.getElem?_cons_zero, Option.some.injEq] at hb
            have hn3 : n = st.emitted.length - 1 := by omega
            rw [hn3] at ha
            have hfr := hend a ha
            rw [← hb, hfr]
            exact ⟨_, bands, image, hdec, by omega, hout⟩
          · have : (st.emitted ++ [({ index := i, frame := out, pixels := pixels } : Emitted)])[n + 1]?
                = none := by
              apply List.getElem?_eq_none
              simp only [List.length_append, List.length_singleton]
              omega
            rw [this] at hb
            cases hb

/-- What `main` does on `exArchiveWide` under the key `[0xFF]`: the descriptor declares
`w = 2`, `h = 2^31`, `c = 4`, the size is computed as 0, and one empty frame is written. -/
theorem exArchiveWide_run :
    leNat ((exArchiveWide.drop 30).take 4) = 2 ∧
    leNat ((exArchiveWide.drop 34).take 4) = 2147483648 ∧
    leNat ((exArchiveWide.drop 38).take 4) = 4 ∧
    exArchiveWide.length = 42 + 17179869184 ∧
    main [0xFF] exArchiveWide = ([exEmptyFrame], none) := by
  have hlen : exArchiveWide.length = 42 + 17179869184 := by
    simp only [exArchiveWide, List.length_append, List.length_replicate]
    rfl
  have hP : exWidePrefix.length = 42 := by decide
  have hw : leNat ((exArchiveWide.drop 30).take 4) = 2 := by
    rw [exArchiveWide, window_append _ _ 30 4 (by have := hP; omega)]; decide
  have hh : leNat ((exArchiveWide.drop 34).take 4) = 2147483648 := by
    rw [exArchiveWide, window_append _ _ 34 4 (by have := hP; omega)]; decide
  have hc : leNat ((exArchiveWide.drop 38).take 4) = 4 := by
    rw [exArchiveWide, window_append _ _ 38 4 (by have := hP; omega)]; decide
  have hfc : fileCount exArchiveWide = 1 := by
    rw [fileCount, exArchiveWide, window_append _ _ 4 2 (by have := hP; omega)]; decide
  refine ⟨hw, hh, hc, hlen, ?_⟩
  have hS : mul32 (mul32 2 2147483648) 4 = 0 := by decide
  have hread : IStream.read { rest := exArchiveWide.drop 42, good := true } id
      (List.replicate 0 0) 0 = ([], { rest := exArchiveWide.drop 42, good := true }) := by
    rw [read_full { rest := exArchiveWide.drop 42, good := true } id (List.replicate 0 0) 0
      rfl (Nat.zero_le _) rfl]
    rfl
  have hb := baseFrame_eq [0xFF] exArchiveWide (by omega) 2 2147483648 4 hw hh hc
    [] [] (by rw [hS, hread]; decide) (by decide)
  rw [main_of_baseFrame _ _ _ _ _ _ _ 1 hb (by rw [headerCount _ (by omega), hfc])]
  rfl

/-- C11 as amended: every frame the pipeline emits for one archive, frame 0 and every
accumulated frame, has exactly the size the program computes from the base descriptor,
the product `w * h * c` in 32 bits, which is `w * h * c` whenever that is below `2^32`,
whatever the delta entries declare and however the run ends; and every frame after frame 0
is the frame before it plus a delta that `decompress_rle` returned for that size, the two
buffers having equal length when they are added. -/
theorem main_frame_size (keydb file : List Nat) (ems : List Emitted) (r : Option Fault)
    (hmain : main keydb file = (ems, r)) :
    (∀ e ∈ ems, e.frame.length = imageSize file) ∧
    (∀ n a b, ems[n]? = some a → ems[n + 1]? = some b →
      AddsDelta (imageSize file) a.frame b.frame) ∧
    imageSize file = (leNat ((file.drop 30).take 4) * leNat ((file.drop 34).take 4)
      * leNat ((file.drop 38).take 4)) % 4294967296 ∧
    (leNat ((file.drop 30).take 4) * leNat ((file.drop 34).take 4)
        * leNat ((file.drop 38).take 4) < 4294967296 →
      imageSize file = leNat ((file.drop 30).take 4) * leNat ((file.drop 34).take 4)
        * leNat ((file.drop 38).take 4)) := by
  have hsz : imageSize file = (leNat ((file.drop 30).take 4) * leNat ((file.drop 34).take 4)
      * leNat ((file.drop 38).take 4)) % 4294967296 := mul32_mul32 _ _ _
  suffices hboth : (∀ e ∈ ems, e.frame.length = imageSize file) ∧
      (∀ n a b, ems[n]? = some a → ems[n + 1]? = some b →
        AddsDelta (imageSize file) a.frame b.frame) from
    ⟨hboth.1, hboth.2, hsz, fun hlt => by rw [hsz, Nat.mod_eq_of_lt hlt]⟩
  unfold main at hmain
  cases hb : baseFrame keydb file with
  | error f =>
    rw [hb] at hmain
    simp only [Prod.mk.injEq] at hmain
    rw [← hmain.1]
    exact ⟨fun e he => absurd he (List.not_mem_nil e), fun n a b ha => by cases ha⟩
  | ok res =>
    obtain ⟨w, h, c, hdr, st⟩ := res
    rw [hb] at hmain
    simp only at hmain
    obtain ⟨-, -, hw, hh, hc, image1, pixels, hd, -, hst⟩ := baseFrame_ok keydb file w h c hdr st hb
    have hS : imageSize file = mul32 (mul32 w h) c := by rw [imageSize, ← hw, ← hh, ← hc]
    have hlen : image1.length = mul32 (mul32 w h) c := by
      rw [decrypt_length _ _ _ hd]
      exact read_length _ _
    have hrun : deltaLoop w h c [] st = (st.emitted, none) := rfl
    have key : ∀ (is : List Nat) (ems1 : List Emitted) (r1 : Option Fault),
        deltaLoop w h c is st = (ems1, r1) →
        (∀ e ∈ ems1, e.frame.length = imageSize file) ∧
        (∀ n a b, ems1[n]? = some a → ems1[n + 1]? = some b →
          AddsDelta (imageSize file) a.frame b.frame) := by
      intro is ems1 r1 hl
      rw [hS]
      refine deltaLoop_sizes w h c is st ems1 r1 hl (by rw [hst]; exact hlen) ?_ ?_ ?_
      · intro e he
        rw [hst] at he
        simp only [List.mem_singleton] at he
        rw [he]
        exact hlen
      · intro a ha
        rw [hst] at ha
        simp only [List.length_singleton, Nat.sub_self, List.getElem?_cons_zero,
          Option.some.injEq] at ha
        rw [← ha, hst]
      · intro n a b _ hb2
        rw [hst] at hb2
        simp only [List.getElem?_cons_succ, List.getElem?_nil] at hb2
        cases hb2
    cases hfc : leField hdr 4 2 with
    | error f =>
      rw [hfc] at hmain
      simp only [Prod.mk.injEq] at hmain
      rw [← hmain.1]
      exact key [] st.emitted none hrun
    | ok fc =>
      rw [hfc] at hmain
      exact key _ ems r hmain

/-- The archive of spec 8 under the key `[0xFF]`: both frames have the six bytes of the
size `2 * 1 * 3`, and frame 1 is frame 0 plus the delta of six bytes 1. -/
theorem main_frame_size_witness :
    main [0xFF] exArchive = (exEmitted, none) ∧
    imageSize exArchive = 6 ∧
    exEmitted.map (fun e => e.frame.length) = [6, 6] ∧
    ((∀ e ∈ exEmitted, e.frame.length = imageSize exArchive) ∧
    (∀ n a b, exEmitted[n]? = some a → exEmitted[n + 1]? = some b →
      AddsDelta (imageSize exArchive) a.frame b.frame) ∧
    imageSize exArchive = (leNat ((exArchive.drop 30).take 4) * leNat ((exArchive.drop 34).take 4)
      * leNat ((exArchive.drop 38).take 4)) % 4294967296 ∧
    (leNat ((exArchive.drop 30).take 4) * leNat ((exArchive.drop 34).take 4)
        * leNat ((exArchive.drop 38).take 4) < 4294967296 →
      imageSize exArchive = leNat ((exArchive.drop 30).take 4) * leNat ((exArchive.drop 34).take 4)
        * leNat ((exArchive.drop 38).take 4))) :=
  ⟨by decide, by decide, by decide, main_frame_size [0xFF] exArchive exEmitted none (by decide)⟩

/-- C11 as stated fails where `w * h * c` does not fit 32 bits: on `exArchiveWide`, which
holds every byte it declares, the descriptor gives `w * h * c = 2 * 2^31 * 4 = 2^34`, the
program computes the size 0, and the frame it emits is empty. -/
theorem main_frame_size_counterexample :
    leNat ((exArchiveWide.drop 30).take 4) * leNat ((exArchiveWide.drop 34).take 4)
      * leNat ((exArchiveWide.drop 38).take 4) = 17179869184 ∧
    exArchiveWide.length = 42 + 17179869184 ∧
    main [0xFF] exArchiveWide = ([exEmptyFrame], none) ∧
    exEmptyFrame.frame.length = 0 ∧
    exEmptyFrame.frame.length ≠ 17179869184 ∧
    imageSize exArchiveWide = 0 := by
  obtain ⟨hw, hh, hc, hlen, hmain⟩ := exArchiveWide_run
  refine ⟨by rw [hw, hh, hc], hlen, hmain, rfl, by decide, ?_⟩
  rw [imageSize, hw, hh, hc]
  decide

end Plt
